import Mathlib

/-!
Verification development for the local-variable reaching-definitions
analysis (src/src/ir/LocalGraph.cpp).

The embedding mirrors the source closely:

* LocalGet / LocalSet are the tracked tree nodes; node identity is
  modelled by an id field (pointer identity in the source).
* An origin of a get is either `some s` (a reaching LocalSet) or `none`
  (the nullptr sentinel: the implicit param/zero value).
* GetSetses (the read -> reaching-origins map) is a function from get id
  to a duplicate-free list of origins; std::set insertion is modelled by
  insertOrigin, which is a no-op on an already-present origin.
* FlowBlock corresponds to LocalGraphInternal::Flower::flow's FlowBlock:
  an action list plus predecessor ids.  The lastSets vector of the source
  is recovered from the action list by lastSetOf (the source builds it in
  lock-step with the action list in doVisitLocalSet, where the last set
  for an index overwrites previous ones, which is exactly the fold below).
* flowPreds / flowLoop / flowIndex / flowBlockStep / flowAll implement
  Flower::flow: the backward intra-block scan, then, per variable index
  with pending gets, the backward inter-block worklist search guarded by
  the lastTraversedIteration generation marker.  The worklist loop is
  given explicit fuel; searchFuel is proved sufficient below, so the
  fallback branch of flowIndex is never taken on well-formed graphs.
-/

namespace LocalGraphModel

/-- Local variable index (wasm::Index). -/
abbrev VarIndex := Nat

/-- A local.get node; id models node identity. -/
structure LocalGet where
  id : Nat
  index : VarIndex
deriving DecidableEq, Repr

/-- A local.set node; id models node identity. -/
structure LocalSet where
  id : Nat
  index : VarIndex
deriving DecidableEq, Repr

/-- An action recorded in a basic block: a local.get or a local.set. -/
inductive Action where
  | get : LocalGet → Action
  | set : LocalSet → Action
deriving DecidableEq, Repr

/-- A reaching origin: some set, or none for the nullptr sentinel
(implicit param / zero-init value). -/
abbrev Origin := Option LocalSet

/-- The getSetses map, keyed by get id. -/
abbrev GS := Nat → List Origin

/-- Pending (not yet resolved) gets per variable index: the allGets
vector of Flower::flow. -/
abbrev Pending := VarIndex → List LocalGet

/-- Pointwise update of a function map. -/
def updFn {α : Type} (f : Nat → α) (k : Nat) (v : α) : Nat → α :=
  fun i => if i = k then v else f i

/-- std::set insertion: add an origin unless already present. -/
def insertOrigin (o : Origin) (l : List Origin) : List Origin :=
  if o ∈ l then l else o :: l

/-- Record origin o for every get in the list (the loops
"for (auto* get : gets) getSetses[get].insert(...)"). -/
def recordAll (gets : List LocalGet) (o : Origin) (gs : GS) : GS :=
  gets.foldl (fun acc g => updFn acc g.id (insertOrigin o (acc g.id))) gs

/-- The last local.set of a given index in an action list: the value the
source keeps in Info.lastSets (doVisitLocalSet overwrites the entry for
the set's index, so the last one in block order wins). -/
def lastSetOf (acts : List Action) (idx : VarIndex) : Option LocalSet :=
  acts.foldl
    (fun acc a =>
      match a with
      | Action.set s => if s.index = idx then some s else acc
      | Action.get _ => acc)
    none

/-- A flow block: the action sequence and the predecessor block ids
(FlowBlock's actions and in). -/
structure FlowBlock where
  actions : List Action
  inEdges : List Nat
deriving DecidableEq, Repr

/-- The control-flow graph handed to the flow: the ordered block list,
the designated entry block id, and the number of locals of the
function. -/
structure CFG where
  blocks : List FlowBlock
  entryId : Nat
  numLocals : Nat
deriving DecidableEq, Repr

/-- Block lookup by id (pointer dereference in the source; ids out of
range give an inert empty block and never arise from well-formed
graphs). -/
def blockAt (cfg : CFG) (i : Nat) : FlowBlock :=
  cfg.blocks.getD i ⟨[], []⟩

/-- The backward intra-block scan of Flower::flow: actions are handled
from last to first; a get is appended to its index's pending list, a set
is recorded as the origin of every pending get of its index and clears
that pending list. -/
def scanBlock : List Action → Pending → GS → Pending × GS
  | [], p, gs => (p, gs)
  | a :: rest, p, gs =>
    let r := scanBlock rest p gs
    match a with
    | Action.get g => (updFn r.1 g.index (r.1 g.index ++ [g]), r.2)
    | Action.set s =>
      (updFn r.1 s.index [], recordAll (r.1 s.index) (some s) r.2)

/-- State of one inter-block backward search: the per-block
lastTraversedIteration markers (none models NULL_ITERATION), the
worklist, and the getSetses accumulated so far. -/
structure SearchState where
  lti : Nat → Option Nat
  work : List Nat
  gs : GS

/-- The predecessor loop of the worklist search: each unmarked
predecessor is marked with the current iteration; if it has a last set
for the searched index that set is recorded for all pending gets and the
flow stops there, otherwise the predecessor is pushed onto the
worklist.  A predecessor already marked in this iteration is skipped. -/
def flowPreds (cfg : CFG) (idx : VarIndex) (gets : List LocalGet)
    (iter : Nat) : List Nat → SearchState → SearchState
  | [], st => st
  | p :: ps, st =>
    if st.lti p = some iter then
      flowPreds cfg idx gets iter ps st
    else
      let lti2 := updFn st.lti p (some iter)
      match lastSetOf (blockAt cfg p).actions idx with
      | some s =>
        flowPreds cfg idx gets iter ps
          ⟨lti2, st.work, recordAll gets (some s) st.gs⟩
      | none => flowPreds cfg idx gets iter ps ⟨lti2, p :: st.work, st.gs⟩

/-- The worklist loop of Flower::flow for one variable index: pop a
block; a predecessor-less block records the implicit (none) origin for
all pending gets when it is the entry block and records nothing
otherwise; a block with predecessors hands them to flowPreds.  The loop
carries fuel; none signals fuel exhaustion (proved unreachable for
sufficient fuel below). -/
def flowLoop (cfg : CFG) (idx : VarIndex) (gets : List LocalGet)
    (iter : Nat) : Nat → SearchState → Option SearchState
  | 0, _ => none
  | fuel + 1, st =>
    match st.work with
    | [] => some st
    | c :: rest =>
      if (blockAt cfg c).inEdges.isEmpty then
        if c = cfg.entryId then
          flowLoop cfg idx gets iter fuel
            ⟨st.lti, rest, recordAll gets none st.gs⟩
        else
          flowLoop cfg idx gets iter fuel ⟨st.lti, rest, st.gs⟩
      else
        flowLoop cfg idx gets iter fuel
          (flowPreds cfg idx gets iter (blockAt cfg c).inEdges
            ⟨st.lti, rest, st.gs⟩)

/-- Fuel sufficient for any worklist search on this graph (each loop
iteration strictly decreases 2 * unmarked-blocks + worklist-length,
which starts at most 2 * blocks + 1). -/
def searchFuel (cfg : CFG) : Nat := 2 * cfg.blocks.length + 2

/-- State threaded through the flow: pending gets, generation markers,
getSetses, and the currentIteration counter. -/
structure FlowState where
  pending : Pending
  lti : Nat → Option Nat
  gs : GS
  iter : Nat

/-- One index of the per-index loop after a block scan: if the index has
pending gets, run the worklist search starting from the scanned block,
then clear the pending list and advance currentIteration. -/
def flowIndex (cfg : CFG) (blockId : Nat) (index : VarIndex)
    (fs : FlowState) : FlowState :=
  let gets := fs.pending index
  if gets.isEmpty then fs
  else
    let st0 : SearchState := ⟨fs.lti, [blockId], fs.gs⟩
    let st1 := (flowLoop cfg index gets fs.iter (searchFuel cfg) st0).getD st0
    { pending := updFn fs.pending index []
      lti := st1.lti
      gs := st1.gs
      iter := fs.iter + 1 }

/-- Processing of one block in Flower::flow: backward scan of its
actions, then the inter-block search for every local index. -/
def flowBlockStep (cfg : CFG) (blockId : Nat) (fs : FlowState) :
    FlowState :=
  let r := scanBlock (blockAt cfg blockId).actions fs.pending fs.gs
  (List.range cfg.numLocals).foldl
    (fun acc i => flowIndex cfg blockId i acc)
    { fs with pending := r.1, gs := r.2 }

/-- The initial flow state. -/
def initFlowState : FlowState :=
  ⟨fun _ => [], fun _ => none, fun _ => [], 0⟩

/-- The whole flow of Flower::flow: every block in order. -/
def flowAll (cfg : CFG) : FlowState :=
  (List.range cfg.blocks.length).foldl
    (fun fs b => flowBlockStep cfg b fs) initFlowState

/-! ### The LocalGraph facade -/

/-- A declared local type (wasm::Type); only equality of types is
consulted by the analysis. -/
inductive WasmType where
  | i32 | i64 | f32 | f64
deriving DecidableEq, Repr

/-- The slice of wasm::Function the analysis consults: the number of
parameters and the per-slot declared types (parameters first). -/
structure Func where
  numParams : Nat
  localTypes : List WasmType
deriving DecidableEq, Repr

/-- Function::isParam: a slot is a parameter when its index is below the
parameter count. -/
def isParam (f : Func) (i : VarIndex) : Bool := i < f.numParams

/-- Function::getLocalType: the declared type of a slot. -/
def getLocalType (f : Func) (i : VarIndex) : WasmType :=
  f.localTypes.getD i WasmType.i32

/-- The projection of an action list onto its gets. -/
def getsOf (acts : List Action) : List LocalGet :=
  acts.filterMap fun a =>
    match a with
    | Action.get g => some g
    | Action.set _ => none

/-- The projection of an action list onto its sets. -/
def setsOf (acts : List Action) : List LocalSet :=
  acts.filterMap fun a =>
    match a with
    | Action.get _ => none
    | Action.set s => some s

/-- All tracked actions of the graph, i.e. the keys of the locations map
(every get and set appended to some block's action list). -/
def CFG.allActions (cfg : CFG) : List Action :=
  (cfg.blocks.map FlowBlock.actions).flatten

/-- The public LocalGraph state: the owning function's data, the
read -> reaching-origins map, the tracked nodes (the locations keys),
and SSAIndexes, empty until computeSSAIndexes has been run. -/
structure LocalGraph where
  func : Func
  getSetses : GS
  tracked : List Action
  SSAIndexes : VarIndex → Bool

/-- LocalGraph construction: run the whole flow eagerly; SSAIndexes
starts empty. -/
def mkLocalGraph (cfg : CFG) (f : Func) : LocalGraph :=
  { func := f
    getSetses := (flowAll cfg).gs
    tracked := cfg.allActions
    SSAIndexes := fun _ => false }

/-- LocalGraph::equivalent: both reads need exactly one reaching origin;
distinct single origins are inequivalent; the same concrete set proves
equivalence; two implicit origins compare by index for a parameter slot
(of the first read) and by declared type otherwise. -/
def equivalent (lg : LocalGraph) (a b : LocalGet) : Bool :=
  match lg.getSetses a.id, lg.getSetses b.id with
  | [aSet], [bSet] =>
    if aSet ≠ bSet then
      false
    else
      match aSet with
      | none =>
        if isParam lg.func a.index then
          a.index == b.index
        else
          getLocalType lg.func a.index == getLocalType lg.func b.index
      | some _ => true
  | _, _ => false

/-- First pass of LocalGraph::computeSSAIndexes: for every tracked get,
insert each of its reaching origins into its index's bucket. -/
def computeIndexSets (gets : List LocalGet) (gs : GS) :
    VarIndex → List Origin :=
  gets.foldl
    (fun m g =>
      (gs g.id).foldl
        (fun m2 o => updFn m2 g.index (insertOrigin o (m2 g.index))) m)
    (fun _ => [])

/-- One step of pass two of LocalGraph::computeSSAIndexes: a tracked
set whose index's bucket is a singleton not equal to this very set
reveals a second static set for the index, so the bucket is cleared. -/
def invalidateStep (m : VarIndex → List Origin) (s : LocalSet) :
    VarIndex → List Origin :=
  match m s.index with
  | [o] => if o ≠ some s then updFn m s.index [] else m
  | _ => m

/-- Second pass of LocalGraph::computeSSAIndexes over all tracked
sets. -/
def invalidateSets (ss : List LocalSet)
    (m : VarIndex → List Origin) : VarIndex → List Origin :=
  ss.foldl invalidateStep m

/-- LocalGraph::computeSSAIndexes: after both passes, the SSA indexes
are those whose bucket still holds exactly one member. -/
def computeSSAIndexes (lg : LocalGraph) : LocalGraph :=
  { lg with
    SSAIndexes := fun i =>
      (invalidateSets (setsOf lg.tracked)
        (computeIndexSets (getsOf lg.tracked) lg.getSetses) i).length == 1 }

/-- LocalGraph::isSSA: membership in SSAIndexes. -/
def isSSA (lg : LocalGraph) (x : VarIndex) : Bool := lg.SSAIndexes x

/-! ### The CFG walker visitors of the source (doVisitLocalGet /
doVisitLocalSet) -/

/-- Per-basic-block contents accumulated during the walk
(LocalGraphInternal::Info): the action list and the per-index last
set. -/
structure Info where
  actions : List Action
  lastSets : VarIndex → Option LocalSet

/-- Flower::doVisitLocalGet on the walker state (the current basic
block, none inside unreachable code, and the locations list): in
unreachable code the node is skipped, otherwise it is appended to the
block's actions and entered into locations. -/
def doVisitLocalGet (curr : Option Info) (locs : List Action)
    (g : LocalGet) : Option Info × List Action :=
  match curr with
  | none => (none, locs)
  | some bb =>
    (some ⟨bb.actions ++ [Action.get g], bb.lastSets⟩,
      locs ++ [Action.get g])

/-- Flower::doVisitLocalSet: as doVisitLocalGet, and additionally the
block's last set for the index is overwritten. -/
def doVisitLocalSet (curr : Option Info) (locs : List Action)
    (s : LocalSet) : Option Info × List Action :=
  match curr with
  | none => (none, locs)
  | some bb =>
    (some ⟨bb.actions ++ [Action.set s],
        updFn bb.lastSets s.index (some s)⟩,
      locs ++ [Action.set s])

/-! ### Concrete instances used by the claims -/

/-- A one-block function: write A to x, read R1 of x, write B to x,
read R2 of x (ids 1, 2, 3, 4). -/
def cfgStraight : CFG :=
  ⟨[⟨[Action.set ⟨1, 0⟩, Action.get ⟨2, 0⟩,
      Action.set ⟨3, 0⟩, Action.get ⟨4, 0⟩], []⟩], 0, 1⟩

/-- A loop: entry block 0 with no actions, loop header 1 holding a read
of x (id 10) with predecessors 0 and 2, loop body end 2 holding the
single write of x (id 11) with predecessor 1 and a back edge to 1. -/
def cfgLoop : CFG :=
  ⟨[⟨[], []⟩,
    ⟨[Action.get ⟨10, 0⟩], [0, 2]⟩,
    ⟨[Action.set ⟨11, 0⟩], [1]⟩], 0, 1⟩

/-- A graph whose read block 1 hangs off the predecessor-less non-entry
block 2 only: the backward search reaches block 2 with no write found
and block 2 is not the entry block 0. -/
def cfgDeadRoot : CFG :=
  ⟨[⟨[], []⟩, ⟨[Action.get ⟨7, 0⟩], [2]⟩, ⟨[], []⟩], 0, 1⟩

/-- One parameter slot 0 and one plain local slot 1, both of type i32;
the single block reads the local (id 1) then the parameter (id 2),
with no writes, so both reads resolve to the implicit origin. -/
def cfgMixed : CFG :=
  ⟨[⟨[Action.get ⟨1, 1⟩, Action.get ⟨2, 0⟩], []⟩], 0, 2⟩

/-- The function data of cfgMixed. -/
def funcMixed : Func := ⟨1, [WasmType.i32, WasmType.i32]⟩

/-- The LocalGraph of cfgMixed. -/
def lgMixed : LocalGraph := mkLocalGraph cfgMixed funcMixed

/-- Two parameter slots of type i32; reads of parameter 0 (ids 1 and 3)
and of parameter 1 (id 2), no writes. -/
def cfgParams : CFG :=
  ⟨[⟨[Action.get ⟨1, 0⟩, Action.get ⟨2, 1⟩, Action.get ⟨3, 0⟩],
      []⟩], 0, 2⟩

/-- The function data of cfgParams. -/
def funcParams : Func := ⟨2, [WasmType.i32, WasmType.i32]⟩

/-- The LocalGraph of cfgParams. -/
def lgParams : LocalGraph := mkLocalGraph cfgParams funcParams

/-- A function whose only action is a single write (id 1) of index 0:
one static write, no reads of the index. -/
def cfgOnlyWrite : CFG := ⟨[⟨[Action.set ⟨1, 0⟩], []⟩], 0, 1⟩

/-- The function data of cfgOnlyWrite. -/
def funcOnlyWrite : Func := ⟨0, [WasmType.i32]⟩

/-- A one-block function: a write (id 1) of index 0 followed by a read
(id 2) of it, so index 0 is genuinely SSA. -/
def cfgWriteRead : CFG :=
  ⟨[⟨[Action.set ⟨1, 0⟩, Action.get ⟨2, 0⟩], []⟩], 0, 1⟩

/-- The LocalGraph of cfgOnlyWrite. -/
def lgOnlyWrite : LocalGraph := mkLocalGraph cfgOnlyWrite funcOnlyWrite

/-- An origin that the flow is allowed to produce: the implicit origin,
or a set occurring in some block's action list. -/
def OriginFromBlocks (cfg : CFG) (o : Origin) : Prop :=
  o = none ∨
    ∃ blk ∈ cfg.blocks, ∃ s : LocalSet,
      o = some s ∧ Action.set s ∈ blk.actions

/-- The function data of cfgWriteRead. -/
def funcWriteRead : Func := ⟨0, [WasmType.i32]⟩

/-- The LocalGraph of cfgStraight. -/
def lgStraight : LocalGraph := mkLocalGraph cfgStraight ⟨0, [WasmType.i32]⟩

/-- The LocalGraph of cfgLoop. -/
def lgLoop : LocalGraph := mkLocalGraph cfgLoop ⟨0, [WasmType.i32]⟩

/-- The LocalGraph of cfgWriteRead. -/
def lgWriteRead : LocalGraph := mkLocalGraph cfgWriteRead funcWriteRead

/-! ### Infrastructure for the termination and coverage proofs -/

/-- The number of blocks not yet marked with the current search
generation. -/
def unmarkedCount (cfg : CFG) (iter : Nat) (lti : Nat → Option Nat) :
    Nat :=
  (List.range cfg.blocks.length).countP fun i => decide (lti i ≠ some iter)

/-- The decreasing measure of the worklist loop: twice the unmarked
blocks plus the worklist length. -/
def searchMeasure (cfg : CFG) (iter : Nat) (st : SearchState) : Nat :=
  2 * unmarkedCount cfg iter st.lti + st.work.length

/-- Well-formedness of the predecessor lists: every predecessor id of
every block is a valid block id (in the source the in-lists hold
pointers into the block vector, so this holds by construction). -/
def predsValid (cfg : CFG) : Prop :=
  ∀ blk ∈ cfg.blocks, ∀ p ∈ blk.inEdges, p < cfg.blocks.length

/-- A backward path from a block to the entry block along predecessor
edges whose blocks strictly after the head all avoid the marking M. -/
inductive EPath (cfg : CFG) (M : Nat → Prop) : Nat → Prop where
  | entry : EPath cfg M cfg.entryId
  | step : ∀ b p, p ∈ (blockAt cfg b).inEdges → ¬ M p →
      EPath cfg M p → EPath cfg M b

/-- Forward reachability from the entry block along successor edges
(equivalently, b is the head of some backward predecessor path ending at
the entry block). -/
inductive ReachableFromEntry (cfg : CFG) : Nat → Prop where
  | entry : ReachableFromEntry cfg cfg.entryId
  | step : ∀ b p, ReachableFromEntry cfg p →
      p ∈ (blockAt cfg b).inEdges → ReachableFromEntry cfg b

/-- Pointwise containment of getSetses maps (origins are only ever
added, never removed). -/
def GsLe (gs gs2 : GS) : Prop := ∀ x o, o ∈ gs x → o ∈ gs2 x

/-- All generation marks are strictly below the current iteration
counter (so no block is marked with the iteration about to start). -/
def LtiBound (lti : Nat → Option Nat) (n : Nat) : Prop :=
  ∀ i v, lti i = some v → v < n

/-! ### Helper lemmas on equivalent -/

/-- Unfolding of equivalent when both origin lists are singletons. -/
theorem equivalent_singletons (lg : LocalGraph) (a b : LocalGet)
    (oa ob : Origin) (ha : lg.getSetses a.id = [oa])
    (hb : lg.getSetses b.id = [ob]) :
    equivalent lg a b =
      if oa = ob then
        match oa with
        | none =>
          if isParam lg.func a.index then
            a.index == b.index
          else
            getLocalType lg.func a.index == getLocalType lg.func b.index
        | some _ => true
      else false := by
  unfold equivalent
  simp only [ha, hb]
  by_cases h : oa = ob
  · subst h; cases oa <;> simp
  · simp [h]

/-- equivalent returns true only when both origin lists are the same
singleton. -/
theorem equivalent_true_structure (lg : LocalGraph) (a b : LocalGet)
    (h : equivalent lg a b = true) :
    ∃ o, lg.getSetses a.id = [o] ∧ lg.getSetses b.id = [o] := by
  unfold equivalent at h
  rcases ha : lg.getSetses a.id with _ | ⟨oa, ta⟩
  · rw [ha] at h; exact absurd h (by simp)
  rcases ta with _ | ⟨oa2, ta2⟩
  · rcases hb : lg.getSetses b.id with _ | ⟨ob, tb⟩
    · rw [ha, hb] at h; exact absurd h (by simp)
    rcases tb with _ | ⟨ob2, tb2⟩
    · rw [ha, hb] at h
      by_cases hne : oa = ob
      · exact ⟨oa, rfl, by rw [hne]⟩
      · simp [hne] at h
    · rw [ha, hb] at h; exact absurd h (by simp)
  · rw [ha] at h; exact absurd h (by simp)

/-! ### Termination of the worklist search -/

/-- Marking a present, currently unmarked id decreases the unmarked
count over a duplicate-free list by exactly one. -/
theorem countP_mark (l : List Nat) (lti : Nat → Option Nat)
    (iter p : Nat) (hmem : p ∈ l) (hnd : l.Nodup)
    (hunm : lti p ≠ some iter) :
    l.countP (fun i => decide ((updFn lti p (some iter)) i ≠ some iter))
        + 1 =
      l.countP (fun i => decide (lti i ≠ some iter)) := by
  induction l with
  | nil => cases hmem
  | cons a t ih =>
    rw [List.countP_cons, List.countP_cons]
    rcases List.mem_cons.mp hmem with h | h
    · have hat : a ∉ t := (List.nodup_cons.mp hnd).1
      have pat : p ∉ t := by rw [h]; exact hat
      have ht : t.countP
            (fun i => decide ((updFn lti p (some iter)) i ≠ some iter))
          = t.countP (fun i => decide (lti i ≠ some iter)) := by
        apply List.countP_congr
        intro x hx
        have hxp : x ≠ p := fun e => pat (e ▸ hx)
        simp [updFn, hxp]
      rw [ht]
      simp [← h, updFn, hunm]
    · have hnd2 := (List.nodup_cons.mp hnd).2
      by_cases hap : a = p
      · have : a ∈ t := by rw [hap]; exact h
        exact absurd this (List.nodup_cons.mp hnd).1
      · have ha : decide ((updFn lti p (some iter)) a ≠ some iter)
            = decide (lti a ≠ some iter) := by
          simp [updFn, hap]
        rw [ha]
        have := ih h hnd2
        omega

/-- flowPreds never increases the search measure (each examined
predecessor is either skipped, or newly marked while adding at most one
worklist entry). -/
theorem flowPreds_measure_le (cfg : CFG) (idx : VarIndex)
    (gets : List LocalGet) (iter : Nat) :
    ∀ (ps : List Nat) (st : SearchState),
      (∀ p ∈ ps, p < cfg.blocks.length) →
      searchMeasure cfg iter (flowPreds cfg idx gets iter ps st) ≤
        searchMeasure cfg iter st := by
  intro ps
  induction ps with
  | nil => intro st _; exact le_refl _
  | cons p t ih =>
    intro st hv
    have hp : p < cfg.blocks.length := hv p (List.mem_cons_self p t)
    have hv2 : ∀ q ∈ t, q < cfg.blocks.length :=
      fun q hq => hv q (List.mem_cons_of_mem p hq)
    by_cases hm : st.lti p = some iter
    · have step : flowPreds cfg idx gets iter (p :: t) st
          = flowPreds cfg idx gets iter t st := by
        simp [flowPreds, hm]
      rw [step]
      exact ih st hv2
    · have key := countP_mark (List.range cfg.blocks.length) st.lti iter p
        (List.mem_range.mpr hp) (List.nodup_range _) hm
      rcases hls : lastSetOf (blockAt cfg p).actions idx with _ | s
      · have step : flowPreds cfg idx gets iter (p :: t) st
            = flowPreds cfg idx gets iter t
              ⟨updFn st.lti p (some iter), p :: st.work, st.gs⟩ := by
          simp [flowPreds, hm, hls]
        rw [step]
        refine le_trans (ih _ hv2) ?_
        simp only [searchMeasure, unmarkedCount, List.length_cons] at *
        omega
      · have step : flowPreds cfg idx gets iter (p :: t) st
            = flowPreds cfg idx gets iter t
              ⟨updFn st.lti p (some iter), st.work,
                recordAll gets (some s) st.gs⟩ := by
          simp [flowPreds, hm, hls]
        rw [step]
        refine le_trans (ih _ hv2) ?_
        simp only [searchMeasure, unmarkedCount] at *
        omega

/-- A block either is out of range, with no predecessors at all, or is a
member of the block list. -/
theorem blockAt_cases (cfg : CFG) (i : Nat) :
    blockAt cfg i = ⟨[], []⟩ ∨ blockAt cfg i ∈ cfg.blocks := by
  unfold blockAt
  rw [List.getD_eq_getElem?_getD]
  by_cases h : i < cfg.blocks.length
  · rw [List.getElem?_eq_getElem h]
    exact Or.inr (List.getElem_mem h)
  · rw [List.getElem?_eq_none (Nat.le_of_not_lt h)]
    exact Or.inl rfl

/-- predsValid extends to arbitrary block lookups: every predecessor id
found through blockAt is in range. -/
theorem predsValid_blockAt (cfg : CFG) (hv : predsValid cfg) (i : Nat) :
    ∀ p ∈ (blockAt cfg i).inEdges, p < cfg.blocks.length := by
  intro p hp
  rcases blockAt_cases cfg i with h | h
  · rw [h] at hp; cases hp
  · exact hv _ h p hp

/-- With fuel exceeding the search measure, the worklist loop reaches
the empty worklist and returns some state. -/
theorem flowLoop_isSome (cfg : CFG) (idx : VarIndex)
    (gets : List LocalGet) (iter : Nat) (hv : predsValid cfg) :
    ∀ (fuel : Nat) (st : SearchState),
      searchMeasure cfg iter st < fuel →
      (flowLoop cfg idx gets iter fuel st).isSome = true := by
  intro fuel
  induction fuel with
  | zero => intro st h; exact absurd h (Nat.not_lt_zero _)
  | succ fuel ih =>
    intro st hlt
    obtain ⟨lti, work, gs⟩ := st
    cases work with
    | nil => rfl
    | cons c rest =>
      have hlt2 : 2 * unmarkedCount cfg iter lti + rest.length < fuel := by
        simp only [searchMeasure, List.length_cons] at hlt
        omega
      simp only [flowLoop]
      by_cases he : (blockAt cfg c).inEdges.isEmpty
      · rw [if_pos he]
        by_cases hc : c = cfg.entryId
        · rw [if_pos hc]
          apply ih
          simp only [searchMeasure]
          exact hlt2
        · rw [if_neg hc]
          apply ih
          simp only [searchMeasure]
          exact hlt2
      · rw [if_neg he]
        apply ih
        refine lt_of_le_of_lt
          (flowPreds_measure_le cfg idx gets iter _ _
            (predsValid_blockAt cfg hv c)) ?_
        simp only [searchMeasure]
        exact hlt2

/-! ### Monotonicity of getSetses through the flow -/

theorem GsLe.refl (gs : GS) : GsLe gs gs := fun _ _ h => h

theorem GsLe.trans {a b c : GS} (h1 : GsLe a b) (h2 : GsLe b c) :
    GsLe a c := fun x o h => h2 x o (h1 x o h)

/-- Insertion preserves membership. -/
theorem mem_insertOrigin_of_mem {o2 : Origin} {l : List Origin}
    (o : Origin) (h : o2 ∈ l) : o2 ∈ insertOrigin o l := by
  unfold insertOrigin
  by_cases ho : o ∈ l
  · rw [if_pos ho]; exact h
  · rw [if_neg ho]; exact List.mem_cons_of_mem o h

/-- The inserted origin is a member afterwards. -/
theorem mem_insertOrigin_self (o : Origin) (l : List Origin) :
    o ∈ insertOrigin o l := by
  unfold insertOrigin
  by_cases ho : o ∈ l
  · rw [if_pos ho]; exact ho
  · rw [if_neg ho]; exact List.mem_cons_self o l

/-- recordAll only adds origins. -/
theorem recordAll_gs_le (gets : List LocalGet) (o : Origin) :
    ∀ gs : GS, GsLe gs (recordAll gets o gs) := by
  induction gets with
  | nil => intro gs; exact GsLe.refl gs
  | cons g t ih =>
    intro gs
    have h1 : GsLe gs (updFn gs g.id (insertOrigin o (gs g.id))) := by
      intro x o2 h
      unfold updFn
      by_cases hx : x = g.id
      · subst hx
        rw [if_pos rfl]
        exact mem_insertOrigin_of_mem o h
      · rw [if_neg hx]
        exact h
    exact GsLe.trans h1 (ih _)

/-- recordAll records the origin for every listed get. -/
theorem recordAll_mem (o : Origin) :
    ∀ (gets : List LocalGet) (gs : GS) (g : LocalGet), g ∈ gets →
      o ∈ recordAll gets o gs g.id := by
  intro gets
  induction gets with
  | nil => intro gs g h; cases h
  | cons g2 t ih =>
    intro gs g h
    rcases List.mem_cons.mp h with h | h
    · subst h
      show o ∈ recordAll t o (updFn gs g.id (insertOrigin o (gs g.id))) g.id
      apply recordAll_gs_le t o _ g.id
      simp only [updFn, if_pos rfl]
      exact mem_insertOrigin_self o _
    · exact ih _ g h

/-- The backward block scan only adds origins. -/
theorem scanBlock_gs_le :
    ∀ (acts : List Action) (p : Pending) (gs : GS),
      GsLe gs (scanBlock acts p gs).2 := by
  intro acts
  induction acts with
  | nil => intro p gs; exact GsLe.refl gs
  | cons a rest ih =>
    intro p gs
    cases a with
    | get g => exact ih p gs
    | set s =>
      exact GsLe.trans (ih p gs) (recordAll_gs_le _ _ _)

/-- The predecessor loop only adds origins. -/
theorem flowPreds_gs_le (cfg : CFG) (idx : VarIndex)
    (gets : List LocalGet) (iter : Nat) :
    ∀ (ps : List Nat) (st : SearchState),
      GsLe st.gs (flowPreds cfg idx gets iter ps st).gs := by
  intro ps
  induction ps with
  | nil => intro st; exact GsLe.refl _
  | cons p t ih =>
    intro st
    by_cases hm : st.lti p = some iter
    · rw [show flowPreds cfg idx gets iter (p :: t) st
          = flowPreds cfg idx gets iter t st by simp [flowPreds, hm]]
      exact ih st
    · rcases hls : lastSetOf (blockAt cfg p).actions idx with _ | s
      · rw [show flowPreds cfg idx gets iter (p :: t) st
            = flowPreds cfg idx gets iter t
              ⟨updFn st.lti p (some iter), p :: st.work, st.gs⟩ by
            simp [flowPreds, hm, hls]]
        exact ih ⟨updFn st.lti p (some iter), p :: st.work, st.gs⟩
      · rw [show flowPreds cfg idx gets iter (p :: t) st
            = flowPreds cfg idx gets iter t
              ⟨updFn st.lti p (some iter), st.work,
                recordAll gets (some s) st.gs⟩ by
            simp [flowPreds, hm, hls]]
        exact GsLe.trans (recordAll_gs_le gets (some s) st.gs)
          (ih ⟨updFn st.lti p (some iter), st.work,
            recordAll gets (some s) st.gs⟩)

/-- The worklist loop only adds origins. -/
theorem flowLoop_gs_le (cfg : CFG) (idx : VarIndex)
    (gets : List LocalGet) (iter : Nat) :
    ∀ (fuel : Nat) (st st2 : SearchState),
      flowLoop cfg idx gets iter fuel st = some st2 →
      GsLe st.gs st2.gs := by
  intro fuel
  induction fuel with
  | zero => intro st st2 h; cases h
  | succ fuel ih =>
    intro st st2 h
    obtain ⟨lti, work, gs⟩ := st
    cases work with
    | nil =>
      cases h
      exact GsLe.refl _
    | cons c rest =>
      simp only [flowLoop] at h
      by_cases he : (blockAt cfg c).inEdges.isEmpty
      · rw [if_pos he] at h
        by_cases hc : c = cfg.entryId
        · rw [if_pos hc] at h
          exact GsLe.trans (recordAll_gs_le gets none gs)
            (ih ⟨lti, rest, recordAll gets none gs⟩ _ h)
        · rw [if_neg hc] at h
          exact ih ⟨lti, rest, gs⟩ _ h
      · rw [if_neg he] at h
        exact GsLe.trans
          (flowPreds_gs_le cfg idx gets iter _ ⟨lti, rest, gs⟩)
          (ih (flowPreds cfg idx gets iter (blockAt cfg c).inEdges
            ⟨lti, rest, gs⟩) _ h)

/-- flowIndex only adds origins. -/
theorem flowIndex_gs_le (cfg : CFG) (blockId : Nat) (index : VarIndex)
    (fs : FlowState) : GsLe fs.gs (flowIndex cfg blockId index fs).gs := by
  unfold flowIndex
  by_cases hge : (fs.pending index).isEmpty
  · simp only [hge, if_pos rfl]
    exact GsLe.refl _
  · simp only [hge]
    rw [if_neg (by simp [hge])]
    rcases hres : flowLoop cfg index (fs.pending index) fs.iter
        (searchFuel cfg) ⟨fs.lti, [blockId], fs.gs⟩ with _ | st2
    · simp only [hres, Option.getD_none]
      exact GsLe.refl _
    · simp only [hres, Option.getD_some]
      exact flowLoop_gs_le cfg index _ fs.iter _ _ _ hres

/-- The per-index fold only adds origins. -/
theorem foldIdx_gs_le (cfg : CFG) (blockId : Nat) :
    ∀ (l : List VarIndex) (fs : FlowState),
      GsLe fs.gs
        ((l.foldl (fun acc i => flowIndex cfg blockId i acc) fs)).gs := by
  intro l
  induction l with
  | nil => intro fs; exact GsLe.refl _
  | cons i t ih =>
    intro fs
    exact GsLe.trans (flowIndex_gs_le cfg blockId i fs) (ih _)

/-- A block step only adds origins. -/
theorem flowBlockStep_gs_le (cfg : CFG) (blockId : Nat)
    (fs : FlowState) : GsLe fs.gs (flowBlockStep cfg blockId fs).gs := by
  unfold flowBlockStep
  exact GsLe.trans
    (scanBlock_gs_le (blockAt cfg blockId).actions fs.pending fs.gs)
    (foldIdx_gs_le cfg blockId (List.range cfg.numLocals)
      { pending := (scanBlock (blockAt cfg blockId).actions fs.pending fs.gs).1
        lti := fs.lti
        gs := (scanBlock (blockAt cfg blockId).actions fs.pending fs.gs).2
        iter := fs.iter })

/-- The block fold only adds origins. -/
theorem foldBlocks_gs_le (cfg : CFG) :
    ∀ (l : List Nat) (fs : FlowState),
      GsLe fs.gs ((l.foldl (fun acc b => flowBlockStep cfg b acc) fs)).gs := by
  intro l
  induction l with
  | nil => intro fs; exact GsLe.refl _
  | cons b t ih =>
    intro fs
    exact GsLe.trans (flowBlockStep_gs_le cfg b fs) (ih _)

/-- Nonemptiness of an origin list is preserved along GsLe. -/
theorem ne_nil_of_gsLe {gs gs2 : GS} (h : GsLe gs gs2) (x : Nat)
    (hne : gs x ≠ []) : gs2 x ≠ [] := by
  obtain ⟨o, ho⟩ := List.exists_mem_of_ne_nil _ hne
  exact List.ne_nil_of_mem (h x o ho)

/-! ### Generation markers written by the search -/

/-- The predecessor loop only writes the current iteration mark. -/
theorem flowPreds_lti (cfg : CFG) (idx : VarIndex)
    (gets : List LocalGet) (iter : Nat) :
    ∀ (ps : List Nat) (st : SearchState) (i : Nat),
      (flowPreds cfg idx gets iter ps st).lti i = st.lti i ∨
        (flowPreds cfg idx gets iter ps st).lti i = some iter := by
  intro ps
  induction ps with
  | nil => intro st i; exact Or.inl rfl
  | cons p t ih =>
    intro st i
    by_cases hm : st.lti p = some iter
    · rw [show flowPreds cfg idx gets iter (p :: t) st
          = flowPreds cfg idx gets iter t st by simp [flowPreds, hm]]
      exact ih st i
    · have hupd : ∀ (w : List Nat) (gs2 : GS),
          (flowPreds cfg idx gets iter t
              ⟨updFn st.lti p (some iter), w, gs2⟩).lti i = st.lti i ∨
            (flowPreds cfg idx gets iter t
              ⟨updFn st.lti p (some iter), w, gs2⟩).lti i = some iter := by
        intro w gs2
        rcases ih ⟨updFn st.lti p (some iter), w, gs2⟩ i with h | h
        · rw [h]
          by_cases hip : i = p
          · exact Or.inr (by simp [updFn, hip])
          · exact Or.inl (by simp [updFn, hip])
        · exact Or.inr h
      rcases hls : lastSetOf (blockAt cfg p).actions idx with _ | s
      · rw [show flowPreds cfg idx gets iter (p :: t) st
            = flowPreds cfg idx gets iter t
              ⟨updFn st.lti p (some iter), p :: st.work, st.gs⟩ by
            simp [flowPreds, hm, hls]]
        exact hupd _ _
      · rw [show flowPreds cfg idx gets iter (p :: t) st
            = flowPreds cfg idx gets iter t
              ⟨updFn st.lti p (some iter), st.work,
                recordAll gets (some s) st.gs⟩ by
            simp [flowPreds, hm, hls]]
        exact hupd _ _

/-- The worklist loop only writes the current iteration mark. -/
theorem flowLoop_lti (cfg : CFG) (idx : VarIndex)
    (gets : List LocalGet) (iter : Nat) :
    ∀ (fuel : Nat) (st st2 : SearchState),
      flowLoop cfg idx gets iter fuel st = some st2 → ∀ i,
      st2.lti i = st.lti i ∨ st2.lti i = some iter := by
  intro fuel
  induction fuel with
  | zero => intro st st2 h; cases h
  | succ fuel ih =>
    intro st st2 h i
    obtain ⟨lti, work, gs⟩ := st
    cases work with
    | nil => cases h; exact Or.inl rfl
    | cons c rest =>
      simp only [flowLoop] at h
      by_cases he : (blockAt cfg c).inEdges.isEmpty
      · rw [if_pos he] at h
        by_cases hc : c = cfg.entryId
        · rw [if_pos hc] at h
          exact ih ⟨lti, rest, recordAll gets none gs⟩ _ h i
        · rw [if_neg hc] at h
          exact ih ⟨lti, rest, gs⟩ _ h i
      · rw [if_neg he] at h
        rcases ih _ _ h i with h2 | h2
        · rw [h2]
          exact flowPreds_lti cfg idx gets iter _ ⟨lti, rest, gs⟩ i
        · exact Or.inr h2

/-! ### Marked backward paths -/

/-- EPath is stable under pointwise equivalent markings. -/
theorem EPath_congr (cfg : CFG) {M M2 : Nat → Prop}
    (h : ∀ i, M i ↔ M2 i) : ∀ {b}, EPath cfg M b → EPath cfg M2 b := by
  intro b hp
  induction hp with
  | entry => exact EPath.entry
  | step b p hmem hnm _ ih =>
    exact EPath.step b p hmem (fun h2 => hnm ((h p).mpr h2)) ih

/-- Marking one extra block either leaves a marked path intact or
yields a marked path from the newly marked block (cut at its last
occurrence). -/
theorem EPath_mark (cfg : CFG) {M : Nat → Prop} (q : Nat) :
    ∀ {b}, EPath cfg M b →
      EPath cfg (fun i => M i ∨ i = q) b ∨
        EPath cfg (fun i => M i ∨ i = q) q := by
  intro b hp
  induction hp with
  | entry => exact Or.inl EPath.entry
  | step b p hmem hnm _ ih =>
    rcases ih with h | h
    · by_cases hpq : p = q
      · exact Or.inr (hpq ▸ h)
      · exact Or.inl (EPath.step b p hmem
          (fun h2 => h2.elim hnm hpq) h)
    · exact Or.inr h

/-- A block reachable from the entry block carries a backward path
avoiding any vacuous marking. -/
theorem EPath_of_reachable (cfg : CFG) {M : Nat → Prop}
    (hM : ∀ i, ¬ M i) :
    ∀ {b}, ReachableFromEntry cfg b → EPath cfg M b := by
  intro b hr
  induction hr with
  | entry => exact EPath.entry
  | step b p _ hmem ih => exact EPath.step b p hmem (hM p) ih

/-! ### Coverage of the worklist search -/

/-- Invariant of the predecessor loop: if the pending gets already have
an origin, or some worklist block heads a backward path to entry whose
tail is unmarked, or some not-yet-processed predecessor is unmarked and
heads such a path, then after the loop the gets have an origin or some
worklist block heads such a path.  (A marked predecessor on a path
either recorded a set, giving the first disjunct, or was pushed, and
the path can be cut at it.) -/
theorem flowPreds_good (cfg : CFG) (idx : VarIndex)
    (gets : List LocalGet) (iter : Nat) (g0 : LocalGet)
    (hg : g0 ∈ gets) :
    ∀ (ps : List Nat) (st : SearchState),
      (st.gs g0.id ≠ [] ∨
        (∃ b ∈ st.work,
          EPath cfg (fun i => st.lti i = some iter) b) ∨
        (∃ p ∈ ps, st.lti p ≠ some iter ∧
          EPath cfg (fun i => st.lti i = some iter) p)) →
      ((flowPreds cfg idx gets iter ps st).gs g0.id ≠ [] ∨
        ∃ b ∈ (flowPreds cfg idx gets iter ps st).work,
          EPath cfg
            (fun i =>
              (flowPreds cfg idx gets iter ps st).lti i = some iter)
            b) := by
  intro ps
  induction ps with
  | nil =>
    intro st h
    rcases h with h | h | h
    · exact Or.inl h
    · exact Or.inr h
    · obtain ⟨p, hp, _⟩ := h; cases hp
  | cons p t ih =>
    intro st h
    by_cases hm : st.lti p = some iter
    · rw [show flowPreds cfg idx gets iter (p :: t) st
          = flowPreds cfg idx gets iter t st by simp [flowPreds, hm]]
      apply ih st
      rcases h with h | h | h
      · exact Or.inl h
      · exact Or.inr (Or.inl h)
      · obtain ⟨p2, hp2, hunm, hpath⟩ := h
        rcases List.mem_cons.mp hp2 with h2 | h2
        · exact absurd (show st.lti p2 = some iter by rw [h2]; exact hm)
            hunm
        · exact Or.inr (Or.inr ⟨p2, h2, hunm, hpath⟩)
    · have hiff : ∀ i, (st.lti i = some iter ∨ i = p) ↔
          (updFn st.lti p (some iter) i = some iter) := by
        intro i
        by_cases hip : i = p
        · simp [updFn, hip]
        · simp [updFn, hip]
      rcases hls : lastSetOf (blockAt cfg p).actions idx with _ | s
      · rw [show flowPreds cfg idx gets iter (p :: t) st
            = flowPreds cfg idx gets iter t
              ⟨updFn st.lti p (some iter), p :: st.work, st.gs⟩ by
            simp [flowPreds, hm, hls]]
        apply ih
        rcases h with h | h | h
        · exact Or.inl h
        · obtain ⟨b, hb, hpath⟩ := h
          rcases EPath_mark cfg p hpath with h2 | h2
          · exact Or.inr (Or.inl ⟨b, List.mem_cons_of_mem p hb,
              EPath_congr cfg hiff h2⟩)
          · exact Or.inr (Or.inl ⟨p, List.mem_cons_self p _,
              EPath_congr cfg hiff h2⟩)
        · obtain ⟨p2, hp2, hunm, hpath⟩ := h
          rcases List.mem_cons.mp hp2 with h2 | h2
          · rcases EPath_mark cfg p hpath with h3 | h3
            · exact Or.inr (Or.inl ⟨p, List.mem_cons_self p _,
                EPath_congr cfg hiff (h2 ▸ h3)⟩)
            · exact Or.inr (Or.inl ⟨p, List.mem_cons_self p _,
                EPath_congr cfg hiff h3⟩)
          · rcases EPath_mark cfg p hpath with h3 | h3
            · by_cases hp2p : p2 = p
              · exact Or.inr (Or.inl ⟨p, List.mem_cons_self p _,
                  EPath_congr cfg hiff (hp2p ▸ h3)⟩)
              · refine Or.inr (Or.inr ⟨p2, h2, ?_,
                  EPath_congr cfg hiff h3⟩)
                simpa [updFn, hp2p] using hunm
            · exact Or.inr (Or.inl ⟨p, List.mem_cons_self p _,
                EPath_congr cfg hiff h3⟩)
      · rw [show flowPreds cfg idx gets iter (p :: t) st
            = flowPreds cfg idx gets iter t
              ⟨updFn st.lti p (some iter), st.work,
                recordAll gets (some s) st.gs⟩ by
            simp [flowPreds, hm, hls]]
        apply ih
        exact Or.inl
          (List.ne_nil_of_mem (recordAll_mem (some s) gets st.gs g0 hg))

/-- If some worklist block heads a backward path to the entry block
whose tail is unmarked (or the gets already found an origin), then the
worklist loop, when it completes, has recorded at least one origin for
every pending get: walking the path either meets a block with a last
set of the index, or reaches the predecessor-less entry block, which
records the implicit origin. -/
theorem flowLoop_good (cfg : CFG) (idx : VarIndex)
    (gets : List LocalGet) (iter : Nat) (g0 : LocalGet) (hg : g0 ∈ gets)
    (hentry : (blockAt cfg cfg.entryId).inEdges = []) :
    ∀ (fuel : Nat) (st st2 : SearchState),
      flowLoop cfg idx gets iter fuel st = some st2 →
      (st.gs g0.id ≠ [] ∨
        ∃ b ∈ st.work, EPath cfg (fun i => st.lti i = some iter) b) →
      st2.gs g0.id ≠ [] := by
  intro fuel
  induction fuel with
  | zero => intro st st2 h _; cases h
  | succ fuel ih =>
    intro st st2 h hgood
    obtain ⟨lti, work, gs⟩ := st
    rcases hgood with hne | ⟨b, hb, hpath⟩
    · exact ne_nil_of_gsLe
        (flowLoop_gs_le cfg idx gets iter (fuel + 1) _ _ h) g0.id hne
    cases work with
    | nil => cases hb
    | cons c rest =>
      simp only [flowLoop] at h
      by_cases he : (blockAt cfg c).inEdges.isEmpty
      · rw [if_pos he] at h
        by_cases hc : c = cfg.entryId
        · rw [if_pos hc] at h
          apply ih _ _ h
          exact Or.inl
            (List.ne_nil_of_mem (recordAll_mem none gets gs g0 hg))
        · rw [if_neg hc] at h
          apply ih _ _ h
          rcases List.mem_cons.mp hb with h2 | h2
          · exfalso
            have hpc : EPath cfg (fun i => lti i = some iter) c :=
              h2 ▸ hpath
            cases hpc with
            | entry => exact hc rfl
            | step b2 p hmem hnm hp =>
              rw [List.isEmpty_iff.mp he] at hmem
              cases hmem
          · exact Or.inr ⟨b, h2, hpath⟩
      · rw [if_neg he] at h
        apply ih _ _ h
        apply flowPreds_good cfg idx gets iter g0 hg
        rcases List.mem_cons.mp hb with h2 | h2
        · have hpc : EPath cfg (fun i => lti i = some iter) c :=
            h2 ▸ hpath
          cases hpc with
          | entry =>
            exfalso
            exact he (by rw [hentry]; rfl)
          | step b2 p hmem hnm hp =>
            exact Or.inr (Or.inr ⟨p, hmem, hnm, hp⟩)
        · exact Or.inr (Or.inl ⟨b, h2, hpath⟩)

/-- A get in a block's actions is, after the backward scan, either
still pending for its index or already carries an origin (the origin
case arises exactly when a set of its index precedes it). -/
theorem scanBlock_pending (g : LocalGet) :
    ∀ (acts : List Action) (p : Pending) (gs : GS),
      Action.get g ∈ acts →
      g ∈ (scanBlock acts p gs).1 g.index ∨
        (scanBlock acts p gs).2 g.id ≠ [] := by
  intro acts
  induction acts with
  | nil => intro p gs h; cases h
  | cons a rest ih =>
    intro p gs h
    rcases List.mem_cons.mp h with h2 | h2
    · subst h2
      left
      show g ∈ updFn (scanBlock rest p gs).1 g.index
        ((scanBlock rest p gs).1 g.index ++ [g]) g.index
      simp only [updFn, if_pos rfl]
      exact List.mem_append_right _ (List.mem_singleton.mpr rfl)
    · rcases ih p gs h2 with hpend | hne
      · cases a with
        | get g2 =>
          left
          show g ∈ updFn (scanBlock rest p gs).1 g2.index
            ((scanBlock rest p gs).1 g2.index ++ [g2]) g.index
          by_cases hidx : g.index = g2.index
          · simp only [updFn, if_pos hidx]
            exact List.mem_append_left _ (hidx ▸ hpend)
          · simp only [updFn, if_neg hidx]
            exact hpend
        | set s =>
          by_cases hidx : s.index = g.index
          · right
            show recordAll ((scanBlock rest p gs).1 s.index) (some s)
              (scanBlock rest p gs).2 g.id ≠ []
            exact List.ne_nil_of_mem
              (recordAll_mem (some s) _ _ g (hidx ▸ hpend))
          · left
            show g ∈ updFn (scanBlock rest p gs).1 s.index [] g.index
            have hgs : ¬ (g.index = s.index) := fun hh => hidx hh.symm
            simp only [updFn, if_neg hgs]
            exact hpend
      · right
        cases a with
        | get g2 => exact hne
        | set s =>
          exact ne_nil_of_gsLe (recordAll_gs_le _ _ _) g.id hne

/-- flowIndex preserves the generation bound invariant: it marks only
with the current iteration and then advances the counter past it. -/
theorem flowIndex_ltiBound (cfg : CFG) (blockId : Nat) (index : VarIndex)
    (fs : FlowState) (h : LtiBound fs.lti fs.iter) :
    LtiBound (flowIndex cfg blockId index fs).lti
      (flowIndex cfg blockId index fs).iter := by
  unfold flowIndex
  by_cases hge : (fs.pending index).isEmpty
  · simp only [hge, if_pos rfl]
    exact h
  · simp only [hge]
    rw [if_neg (by simp [hge])]
    rcases hres : flowLoop cfg index (fs.pending index) fs.iter
        (searchFuel cfg) ⟨fs.lti, [blockId], fs.gs⟩ with _ | st2
    · simp only [hres, Option.getD_none]
      intro i v hv
      exact Nat.lt_succ_of_lt (h i v hv)
    · simp only [hres, Option.getD_some]
      intro i v hv
      rcases flowLoop_lti cfg index _ fs.iter _ _ _ hres i with h2 | h2
      · rw [h2] at hv
        exact Nat.lt_succ_of_lt (h i v hv)
      · rw [h2] at hv
        have hv2 := Option.some.inj hv
        omega

/-- flowIndex leaves the pending lists of other indices untouched. -/
theorem flowIndex_pending_other (cfg : CFG) (blockId : Nat)
    (index : VarIndex) (fs : FlowState) (j : VarIndex) (hj : j ≠ index) :
    (flowIndex cfg blockId index fs).pending j = fs.pending j := by
  unfold flowIndex
  by_cases hge : (fs.pending index).isEmpty
  · simp [hge]
  · simp only [hge]
    rw [if_neg (by simp [hge])]
    show updFn fs.pending index [] j = fs.pending j
    simp [updFn, hj]

/-- If a pending get's block heads an unmarked backward path to entry,
flowIndex for its index records at least one origin for it. -/
theorem flowIndex_establishes (cfg : CFG) (blockId : Nat) (g : LocalGet)
    (fs : FlowState) (hv : predsValid cfg)
    (hentry : (blockAt cfg cfg.entryId).inEdges = [])
    (hbound : LtiBound fs.lti fs.iter)
    (hreach : ReachableFromEntry cfg blockId)
    (hpend : g ∈ fs.pending g.index ∨ fs.gs g.id ≠ []) :
    (flowIndex cfg blockId g.index fs).gs g.id ≠ [] := by
  rcases hpend with hpend | hne
  · unfold flowIndex
    have hge : ¬ (fs.pending g.index).isEmpty := by
      intro hemp
      rw [List.isEmpty_iff.mp hemp] at hpend
      cases hpend
    simp only [hge]
    rw [if_neg (by simp [hge])]
    have hmes : searchMeasure cfg fs.iter ⟨fs.lti, [blockId], fs.gs⟩ <
        searchFuel cfg := by
      have hU : unmarkedCount cfg fs.iter fs.lti ≤ cfg.blocks.length := by
        unfold unmarkedCount
        calc (List.range cfg.blocks.length).countP _
            ≤ (List.range cfg.blocks.length).length :=
              List.countP_le_length _
          _ = cfg.blocks.length := List.length_range _
      simp only [searchMeasure, searchFuel, List.length_cons,
        List.length_nil]
      omega
    have hsome := flowLoop_isSome cfg g.index (fs.pending g.index)
      fs.iter hv (searchFuel cfg) ⟨fs.lti, [blockId], fs.gs⟩ hmes
    obtain ⟨st2, hst2⟩ := Option.isSome_iff_exists.mp hsome
    rw [hst2]
    simp only [Option.getD_some]
    apply flowLoop_good cfg g.index (fs.pending g.index) fs.iter g hpend
      hentry (searchFuel cfg) _ _ hst2
    right
    refine ⟨blockId, List.mem_cons_self _ _, ?_⟩
    apply EPath_of_reachable cfg _ hreach
    intro i hmark
    exact absurd (hbound i fs.iter hmark) (Nat.lt_irrefl _)
  · exact ne_nil_of_gsLe (flowIndex_gs_le cfg blockId g.index fs) g.id hne

/-- The per-index fold establishes an origin for a pending get whose
index occurs in the processed index list. -/
theorem foldIdx_establishes (cfg : CFG) (blockId : Nat) (g : LocalGet)
    (hv : predsValid cfg)
    (hentry : (blockAt cfg cfg.entryId).inEdges = [])
    (hreach : ReachableFromEntry cfg blockId) :
    ∀ (l : List VarIndex) (fs : FlowState),
      LtiBound fs.lti fs.iter →
      g.index ∈ l →
      (g ∈ fs.pending g.index ∨ fs.gs g.id ≠ []) →
      ((l.foldl (fun acc i => flowIndex cfg blockId i acc) fs)).gs g.id
        ≠ [] := by
  intro l
  induction l with
  | nil => intro fs _ hmem _; cases hmem
  | cons i t ih =>
    intro fs hbound hmem hpend
    by_cases hig : i = g.index
    · subst hig
      have hest := flowIndex_establishes cfg blockId g fs hv hentry
        hbound hreach hpend
      exact ne_nil_of_gsLe (foldIdx_gs_le cfg blockId t _) g.id hest
    · apply ih
      · exact flowIndex_ltiBound cfg blockId i fs hbound
      · rcases List.mem_cons.mp hmem with h | h
        · exact absurd h.symm hig
        · exact h
      · rcases hpend with hp | hp
        · left
          rw [flowIndex_pending_other cfg blockId i fs g.index
            (fun hh => hig hh.symm)]
          exact hp
        · right
          exact ne_nil_of_gsLe (flowIndex_gs_le cfg blockId i fs) g.id hp

/-- The per-index fold preserves the generation bound invariant. -/
theorem foldIdx_ltiBound (cfg : CFG) (blockId : Nat) :
    ∀ (l : List VarIndex) (fs : FlowState),
      LtiBound fs.lti fs.iter →
      LtiBound
        ((l.foldl (fun acc i => flowIndex cfg blockId i acc) fs)).lti
        ((l.foldl (fun acc i => flowIndex cfg blockId i acc) fs)).iter := by
  intro l
  induction l with
  | nil => intro fs h; exact h
  | cons i t ih =>
    intro fs h
    exact ih _ (flowIndex_ltiBound cfg blockId i fs h)

/-- A block step preserves the generation bound invariant. -/
theorem flowBlockStep_ltiBound (cfg : CFG) (blockId : Nat)
    (fs : FlowState) (h : LtiBound fs.lti fs.iter) :
    LtiBound (flowBlockStep cfg blockId fs).lti
      (flowBlockStep cfg blockId fs).iter := by
  unfold flowBlockStep
  exact foldIdx_ltiBound cfg blockId (List.range cfg.numLocals)
    { pending :=
        (scanBlock (blockAt cfg blockId).actions fs.pending fs.gs).1
      lti := fs.lti
      gs := (scanBlock (blockAt cfg blockId).actions fs.pending fs.gs).2
      iter := fs.iter } h

/-- Processing a reachable block records at least one origin for every
get in its actions. -/
theorem flowBlockStep_establishes (cfg : CFG) (blockId : Nat)
    (g : LocalGet) (hv : predsValid cfg)
    (hentry : (blockAt cfg cfg.entryId).inEdges = [])
    (hreach : ReachableFromEntry cfg blockId)
    (hidx : g.index < cfg.numLocals)
    (hact : Action.get g ∈ (blockAt cfg blockId).actions)
    (fs : FlowState) (hbound : LtiBound fs.lti fs.iter) :
    (flowBlockStep cfg blockId fs).gs g.id ≠ [] := by
  unfold flowBlockStep
  exact foldIdx_establishes cfg blockId g hv hentry hreach
    (List.range cfg.numLocals)
    { pending :=
        (scanBlock (blockAt cfg blockId).actions fs.pending fs.gs).1
      lti := fs.lti
      gs := (scanBlock (blockAt cfg blockId).actions fs.pending fs.gs).2
      iter := fs.iter }
    hbound (List.mem_range.mpr hidx)
    (scanBlock_pending g (blockAt cfg blockId).actions fs.pending fs.gs
      hact)

/-- The block fold establishes an origin for every get of a reachable
block occurring in the processed block list. -/
theorem foldBlocks_establishes (cfg : CFG) (g : LocalGet) (b : Nat)
    (hv : predsValid cfg)
    (hentry : (blockAt cfg cfg.entryId).inEdges = [])
    (hreach : ReachableFromEntry cfg b)
    (hidx : g.index < cfg.numLocals)
    (hact : Action.get g ∈ (blockAt cfg b).actions) :
    ∀ (l : List Nat) (fs : FlowState),
      LtiBound fs.lti fs.iter → b ∈ l →
      ((l.foldl (fun acc x => flowBlockStep cfg x acc) fs)).gs g.id
        ≠ [] := by
  intro l
  induction l with
  | nil => intro fs _ hmem; cases hmem
  | cons x t ih =>
    intro fs hbound hmem
    by_cases hxb : x = b
    · subst hxb
      have hest := flowBlockStep_establishes cfg x g hv hentry hreach
        hidx hact fs hbound
      exact ne_nil_of_gsLe (foldBlocks_gs_le cfg t _) g.id hest
    · rcases List.mem_cons.mp hmem with h | h
      · exact absurd h.symm hxb
      · exact ih _ (flowBlockStep_ltiBound cfg x fs hbound) h

/-! ### Characterization of computeSSAIndexes -/

/-- Membership after insertion. -/
theorem mem_insertOrigin_iff (o2 o : Origin) (l : List Origin) :
    o2 ∈ insertOrigin o l ↔ o2 = o ∨ o2 ∈ l := by
  unfold insertOrigin
  by_cases ho : o ∈ l
  · rw [if_pos ho]
    constructor
    · exact Or.inr
    · rintro (rfl | h)
      · exact ho
      · exact h
  · rw [if_neg ho]
    exact List.mem_cons

/-- Insertion preserves duplicate-freedom. -/
theorem nodup_insertOrigin (o : Origin) (l : List Origin)
    (h : l.Nodup) : (insertOrigin o l).Nodup := by
  unfold insertOrigin
  by_cases ho : o ∈ l
  · rw [if_pos ho]; exact h
  · rw [if_neg ho]; exact List.nodup_cons.mpr ⟨ho, h⟩

/-- Membership after the inner fold of computeSSAIndexes pass one
(inserting every origin of one get at its index's key). -/
theorem foldIns_mem (k : VarIndex) :
    ∀ (os : List Origin) (m : VarIndex → List Origin) (j : VarIndex)
      (o2 : Origin),
      (o2 ∈ (os.foldl
          (fun m2 o => updFn m2 k (insertOrigin o (m2 k))) m) j) ↔
        o2 ∈ m j ∨ (j = k ∧ o2 ∈ os) := by
  intro os
  induction os with
  | nil =>
    intro m j o2
    simp
  | cons o t ih =>
    intro m j o2
    rw [List.foldl_cons, ih]
    by_cases hjk : j = k
    · subst hjk
      have hupd : updFn m j (insertOrigin o (m j)) j
          = insertOrigin o (m j) := by
        unfold updFn
        rw [if_pos rfl]
      rw [hupd, mem_insertOrigin_iff]
      simp only [List.mem_cons, eq_self_iff_true, true_and]
      tauto
    · simp only [updFn, if_neg hjk]
      tauto

/-- The inner fold preserves per-key duplicate-freedom. -/
theorem foldIns_nodup (k : VarIndex) :
    ∀ (os : List Origin) (m : VarIndex → List Origin),
      (∀ j, (m j).Nodup) →
      ∀ j, ((os.foldl
          (fun m2 o => updFn m2 k (insertOrigin o (m2 k))) m) j).Nodup := by
  intro os
  induction os with
  | nil => intro m h j; exact h j
  | cons o t ih =>
    intro m h j
    rw [List.foldl_cons]
    apply ih
    intro j2
    unfold updFn
    by_cases hx : j2 = k
    · rw [if_pos hx]
      exact nodup_insertOrigin o (m k) (h k)
    · rw [if_neg hx]
      exact h j2

/-- Membership in a bucket of pass one: exactly the origins of the gets
of that index. -/
theorem computeIndexSets_mem (gs : GS) :
    ∀ (gets : List LocalGet) (m : VarIndex → List Origin)
      (idx : VarIndex) (o : Origin),
      (o ∈ (gets.foldl
          (fun m2 g => (gs g.id).foldl
            (fun m3 o2 => updFn m3 g.index (insertOrigin o2 (m3 g.index)))
            m2) m) idx) ↔
        o ∈ m idx ∨ ∃ g ∈ gets, g.index = idx ∧ o ∈ gs g.id := by
  intro gets
  induction gets with
  | nil =>
    intro m idx o
    simp
  | cons g t ih =>
    intro m idx o
    rw [List.foldl_cons, ih, foldIns_mem]
    constructor
    · rintro (⟨h | ⟨hjk, ho⟩⟩ | ⟨g2, hg2, hi, ho⟩)
      · exact Or.inl h
      · exact Or.inr ⟨g, List.mem_cons_self g t, hjk.symm, ho⟩
      · exact Or.inr ⟨g2, List.mem_cons_of_mem g hg2, hi, ho⟩
    · rintro (h | ⟨g2, hg2, hi, ho⟩)
      · exact Or.inl (Or.inl h)
      · rcases List.mem_cons.mp hg2 with h2 | h2
        · subst h2
          exact Or.inl (Or.inr ⟨hi.symm, ho⟩)
        · exact Or.inr ⟨g2, h2, hi, ho⟩

/-- Pass one produces duplicate-free buckets. -/
theorem computeIndexSets_nodup (gs : GS) :
    ∀ (gets : List LocalGet) (m : VarIndex → List Origin),
      (∀ j, (m j).Nodup) →
      ∀ idx, ((gets.foldl
          (fun m2 g => (gs g.id).foldl
            (fun m3 o2 => updFn m3 g.index (insertOrigin o2 (m3 g.index)))
            m2) m) idx).Nodup := by
  intro gets
  induction gets with
  | nil => intro m h idx; exact h idx
  | cons g t ih =>
    intro m h idx
    rw [List.foldl_cons]
    exact ih _ (foldIns_nodup g.index (gs g.id) m h) idx

/-- invalidateStep never changes buckets of other indices. -/
theorem invalidateStep_other (m : VarIndex → List Origin) (s : LocalSet)
    (idx : VarIndex) (h : ¬ s.index = idx) :
    invalidateStep m s idx = m idx := by
  unfold invalidateStep
  rcases hm : m s.index with _ | ⟨o2, t2⟩
  · rfl
  rcases t2 with _ | ⟨o3, t3⟩
  · by_cases hne : o2 ≠ some s
    · simp only [if_pos hne]
      have hh : ¬ (idx = s.index) := fun hh => h hh.symm
      simp [updFn, hh]
    · simp only [if_neg hne]
  · rfl

/-- Buckets that are not singletons are never touched by pass two. -/
theorem invalidateSets_not_singleton :
    ∀ (ss : List LocalSet) (m : VarIndex → List Origin)
      (idx : VarIndex),
      (∀ o, m idx ≠ [o]) → invalidateSets ss m idx = m idx := by
  intro ss
  induction ss with
  | nil => intro m idx _; rfl
  | cons s t ih =>
    intro m idx hns
    show invalidateSets t (invalidateStep m s) idx = m idx
    have hstep : invalidateStep m s idx = m idx := by
      by_cases hsi : s.index = idx
      · unfold invalidateStep
        rcases hm : m s.index with _ | ⟨o2, t2⟩
        · rfl
        rcases t2 with _ | ⟨o3, t3⟩
        · exact absurd (by rw [← hsi]; exact hm) (hns o2)
        · rfl
      · exact invalidateStep_other m s idx hsi
    rw [ih _ idx (by rw [hstep]; exact hns), hstep]

/-- Pass two leaves a singleton bucket at an index exactly when pass
one produced that singleton and every tracked set of the index is the
single origin. -/
theorem invalidateSets_singleton_iff :
    ∀ (ss : List LocalSet) (m : VarIndex → List Origin)
      (idx : VarIndex) (o : Origin),
      invalidateSets ss m idx = [o] ↔
        (m idx = [o] ∧ ∀ s ∈ ss, s.index = idx → o = some s) := by
  intro ss
  induction ss with
  | nil =>
    intro m idx o
    constructor
    · intro h; exact ⟨h, fun s hs _ => absurd hs (List.not_mem_nil s)⟩
    · intro h; exact h.1
  | cons s t ih =>
    intro m idx o
    show invalidateSets t (invalidateStep m s) idx = [o] ↔ _
    rw [ih]
    by_cases hsi : s.index = idx
    · rcases hm : m idx with _ | ⟨o2, t2⟩
      · have hstep : invalidateStep m s idx = m idx := by
          unfold invalidateStep
          rw [show m s.index = [] by rw [hsi]; exact hm]
        rw [hstep, hm]
        simp
      · rcases t2 with _ | ⟨o3, t3⟩
        · by_cases hne : o2 = some s
          · have hstep : invalidateStep m s = m := by
              unfold invalidateStep
              rw [show m s.index = [o2] by rw [hsi]; exact hm]
              simp [hne]
            rw [hstep]
            constructor
            · rintro ⟨h1, h2⟩
              rw [hm] at h1
              refine ⟨h1, fun s2 hs2 hs2i => ?_⟩
              rcases List.mem_cons.mp hs2 with h3 | h3
              · subst h3
                injection h1 with h1a _
                rw [← h1a]
                exact hne
              · exact h2 s2 h3 hs2i
            · rintro ⟨h1, h2⟩
              refine ⟨by rw [hm]; exact h1, fun s2 hs2 hs2i =>
                h2 s2 (List.mem_cons_of_mem s hs2) hs2i⟩
          · have hstep : invalidateStep m s = updFn m s.index [] := by
              unfold invalidateStep
              rw [show m s.index = [o2] by rw [hsi]; exact hm]
              simp [hne]
            rw [hstep]
            have hupd : updFn m s.index [] idx = [] := by
              unfold updFn
              rw [if_pos hsi.symm]
            rw [hupd]
            constructor
            · rintro ⟨h1, _⟩
              exact absurd h1 (by simp)
            · rintro ⟨h1, h2⟩
              exfalso
              injection h1 with h1a _
              apply hne
              rw [h1a]
              exact h2 s (List.mem_cons_self s t) hsi
        · have hstep : invalidateStep m s idx = m idx := by
            unfold invalidateStep
            rw [show m s.index = o2 :: o3 :: t3 by rw [hsi]; exact hm]
          rw [hstep, hm]
          simp
    · rw [invalidateStep_other m s idx hsi]
      constructor
      · rintro ⟨h1, h2⟩
        refine ⟨h1, fun s2 hs2 hs2i => ?_⟩
        rcases List.mem_cons.mp hs2 with h3 | h3
        · subst h3; exact absurd hs2i hsi
        · exact h2 s2 h3 hs2i
      · rintro ⟨h1, h2⟩
        exact ⟨h1, fun s2 hs2 hs2i =>
          h2 s2 (List.mem_cons_of_mem s hs2) hs2i⟩

/-- A duplicate-free list is the singleton of o exactly when its
members are exactly o. -/
theorem nodup_eq_singleton_iff {l : List Origin} (hnd : l.Nodup)
    (o : Origin) : l = [o] ↔ ∀ o2, (o2 ∈ l ↔ o2 = o) := by
  constructor
  · intro h o2
    rw [h]
    exact List.mem_singleton
  · intro h
    have ho : o ∈ l := (h o).mpr rfl
    cases l with
    | nil => cases ho
    | cons x t =>
      have hx : x = o := (h x).mp (List.mem_cons_self x t)
      cases t with
      | nil => rw [hx]
      | cons y t2 =>
        have hy : y = o :=
          (h y).mp (List.mem_cons_of_mem x (List.mem_cons_self y t2))
        exfalso
        apply (List.nodup_cons.mp hnd).1
        rw [hx, ← hy]
        exact List.mem_cons_self y t2

/-! ### Provenance of recorded origins -/

/-- recordAll inversion: a recorded origin was already there or is the
one being recorded. -/
theorem recordAll_mem_inv (o : Origin) :
    ∀ (gets : List LocalGet) (gs : GS) (x : Nat) (o2 : Origin),
      o2 ∈ recordAll gets o gs x → o2 ∈ gs x ∨ o2 = o := by
  intro gets
  induction gets with
  | nil => intro gs x o2 h; exact Or.inl h
  | cons g t ih =>
    intro gs x o2 h
    rcases ih _ x o2 h with h2x | h2
    · have h2 : o2 ∈ updFn gs g.id (insertOrigin o (gs g.id)) x := h2x
      by_cases hx : x = g.id
      · rw [show updFn gs g.id (insertOrigin o (gs g.id)) x
            = insertOrigin o (gs g.id) by
            simp [updFn, hx]] at h2
        rcases (mem_insertOrigin_iff o2 o (gs g.id)).mp h2 with h3 | h3
        · exact Or.inr h3
        · rw [hx]
          exact Or.inl h3
      · rw [show updFn gs g.id (insertOrigin o (gs g.id)) x = gs x by
            simp [updFn, hx]] at h2
        exact Or.inl h2
    · exact Or.inr h2

/-- lastSetOf inversion: the last set of an index is one of the
actions. -/
theorem lastSetOf_mem (idx : VarIndex) (s : LocalSet) :
    ∀ (acts : List Action) (acc : Option LocalSet),
      acts.foldl
        (fun acc2 a =>
          match a with
          | Action.set s2 => if s2.index = idx then some s2 else acc2
          | Action.get _ => acc2) acc = some s →
      Action.set s ∈ acts ∨ acc = some s := by
  intro acts
  induction acts with
  | nil => intro acc h; exact Or.inr h
  | cons a rest ih =>
    intro acc h
    rw [List.foldl_cons] at h
    rcases ih _ h with h2 | h2
    · exact Or.inl (List.mem_cons_of_mem a h2)
    · cases a with
      | get g => exact Or.inr h2
      | set s2 =>
        have h2b : (if s2.index = idx then some s2 else acc) = some s := h2
        by_cases hi : s2.index = idx
        · rw [if_pos hi] at h2b
          injection h2b with h3
          exact Or.inl (h3 ▸ List.mem_cons_self _ _)
        · rw [if_neg hi] at h2b
          exact Or.inr h2b

/-- Origins added by the block scan are sets of the scanned actions. -/
theorem scanBlock_prov :
    ∀ (acts : List Action) (p : Pending) (gs : GS) (x : Nat)
      (o : Origin),
      o ∈ (scanBlock acts p gs).2 x →
      o ∈ gs x ∨ ∃ s : LocalSet, o = some s ∧ Action.set s ∈ acts := by
  intro acts
  induction acts with
  | nil => intro p gs x o h; exact Or.inl h
  | cons a rest ih =>
    intro p gs x o h
    cases a with
    | get g =>
      rcases ih p gs x o h with h2 | ⟨s, hs, hmem⟩
      · exact Or.inl h2
      · exact Or.inr ⟨s, hs, List.mem_cons_of_mem _ hmem⟩
    | set s =>
      rcases recordAll_mem_inv (some s) _ _ x o h with h2 | h2
      · rcases ih p gs x o h2 with h3 | ⟨s2, hs2, hmem⟩
        · exact Or.inl h3
        · exact Or.inr ⟨s2, hs2, List.mem_cons_of_mem _ hmem⟩
      · exact Or.inr ⟨s, h2, List.mem_cons_self _ _⟩

/-- Origins added by the predecessor loop come from some block's action
list (or were already present). -/
theorem flowPreds_prov (cfg : CFG) (idx : VarIndex)
    (gets : List LocalGet) (iter : Nat) :
    ∀ (ps : List Nat) (st : SearchState) (x : Nat) (o : Origin),
      o ∈ (flowPreds cfg idx gets iter ps st).gs x →
      o ∈ st.gs x ∨ OriginFromBlocks cfg o := by
  intro ps
  induction ps with
  | nil => intro st x o h; exact Or.inl h
  | cons p t ih =>
    intro st x o h
    by_cases hm : st.lti p = some iter
    · rw [show flowPreds cfg idx gets iter (p :: t) st
          = flowPreds cfg idx gets iter t st by simp [flowPreds, hm]] at h
      exact ih st x o h
    · rcases hls : lastSetOf (blockAt cfg p).actions idx with _ | s
      · rw [show flowPreds cfg idx gets iter (p :: t) st
            = flowPreds cfg idx gets iter t
              ⟨updFn st.lti p (some iter), p :: st.work, st.gs⟩ by
            simp [flowPreds, hm, hls]] at h
        exact ih ⟨updFn st.lti p (some iter), p :: st.work, st.gs⟩ x o h
      · rw [show flowPreds cfg idx gets iter (p :: t) st
            = flowPreds cfg idx gets iter t
              ⟨updFn st.lti p (some iter), st.work,
                recordAll gets (some s) st.gs⟩ by
            simp [flowPreds, hm, hls]] at h
        rcases ih _ x o h with h2 | h2
        · rcases recordAll_mem_inv (some s) gets st.gs x o h2 with h3 | h3
          · exact Or.inl h3
          · right
            right
            rcases blockAt_cases cfg p with hb | hb
            · rw [hb] at hls
              cases (lastSetOf_mem idx s [] none hls) with
              | inl h4 => cases h4
              | inr h4 => cases h4
            · rcases lastSetOf_mem idx s (blockAt cfg p).actions none hls
                with h4 | h4
              · exact ⟨blockAt cfg p, hb, s, h3, h4⟩
              · cases h4
        · exact Or.inr h2

/-- Origins added by the worklist loop come from some block's action
list or are the implicit origin. -/
theorem flowLoop_prov (cfg : CFG) (idx : VarIndex)
    (gets : List LocalGet) (iter : Nat) :
    ∀ (fuel : Nat) (st st2 : SearchState),
      flowLoop cfg idx gets iter fuel st = some st2 →
      ∀ (x : Nat) (o : Origin), o ∈ st2.gs x →
      o ∈ st.gs x ∨ OriginFromBlocks cfg o := by
  intro fuel
  induction fuel with
  | zero => intro st st2 h; cases h
  | succ fuel ih =>
    intro st st2 h x o hmem
    obtain ⟨lti, work, gs⟩ := st
    cases work with
    | nil => cases h; exact Or.inl hmem
    | cons c rest =>
      simp only [flowLoop] at h
      by_cases he : (blockAt cfg c).inEdges.isEmpty
      · rw [if_pos he] at h
        by_cases hc : c = cfg.entryId
        · rw [if_pos hc] at h
          rcases ih _ _ h x o hmem with h2 | h2
          · rcases recordAll_mem_inv none gets gs x o h2 with h3 | h3
            · exact Or.inl h3
            · exact Or.inr (Or.inl h3)
          · exact Or.inr h2
        · rw [if_neg hc] at h
          exact ih _ _ h x o hmem
      · rw [if_neg he] at h
        rcases ih _ _ h x o hmem with h2 | h2
        · exact flowPreds_prov cfg idx gets iter _ ⟨lti, rest, gs⟩ x o h2
        · exact Or.inr h2

/-- Origins added by flowIndex come from some block's action list or
are the implicit origin. -/
theorem flowIndex_prov (cfg : CFG) (blockId : Nat) (index : VarIndex)
    (fs : FlowState) (x : Nat) (o : Origin)
    (h : o ∈ (flowIndex cfg blockId index fs).gs x) :
    o ∈ fs.gs x ∨ OriginFromBlocks cfg o := by
  revert h
  unfold flowIndex
  by_cases hge : (fs.pending index).isEmpty
  · simp only [hge, if_pos rfl]
    exact Or.inl
  · simp only [hge]
    rw [if_neg (by simp [hge])]
    rcases hres : flowLoop cfg index (fs.pending index) fs.iter
        (searchFuel cfg) ⟨fs.lti, [blockId], fs.gs⟩ with _ | st2
    · simp only [hres, Option.getD_none]
      exact Or.inl
    · simp only [hres, Option.getD_some]
      intro h
      exact flowLoop_prov cfg index _ fs.iter _ _ _ hres x o h

/-- Origins added by the per-index fold come from some block's action
list or are the implicit origin. -/
theorem foldIdx_prov (cfg : CFG) (blockId : Nat) :
    ∀ (l : List VarIndex) (fs : FlowState) (x : Nat) (o : Origin),
      o ∈ ((l.foldl (fun acc i => flowIndex cfg blockId i acc) fs)).gs x →
      o ∈ fs.gs x ∨ OriginFromBlocks cfg o := by
  intro l
  induction l with
  | nil => intro fs x o h; exact Or.inl h
  | cons i t ih =>
    intro fs x o h
    rcases ih _ x o h with h2 | h2
    · exact flowIndex_prov cfg blockId i fs x o h2
    · exact Or.inr h2

/-- Origins added by one block step come from some block's action list
or are the implicit origin. -/
theorem flowBlockStep_prov (cfg : CFG) (blockId : Nat)
    (fs : FlowState) (x : Nat) (o : Origin)
    (h : o ∈ (flowBlockStep cfg blockId fs).gs x) :
    o ∈ fs.gs x ∨ OriginFromBlocks cfg o := by
  unfold flowBlockStep at h
  rcases foldIdx_prov cfg blockId (List.range cfg.numLocals) _ x o h
      with h2 | h2
  · rcases scanBlock_prov (blockAt cfg blockId).actions fs.pending fs.gs
        x o h2 with h3 | ⟨s, hs, hmem⟩
    · exact Or.inl h3
    · rcases blockAt_cases cfg blockId with hb | hb
      · rw [hb] at hmem
        cases hmem
      · exact Or.inr (Or.inr ⟨blockAt cfg blockId, hb, s, hs, hmem⟩)
  · exact Or.inr h2

/-- Every origin produced by the whole flow is the implicit origin or a
set occurring in some block's action list. -/
theorem flowAll_prov (cfg : CFG) (x : Nat) (o : Origin)
    (h : o ∈ (flowAll cfg).gs x) : OriginFromBlocks cfg o := by
  unfold flowAll at h
  have haux : ∀ (l : List Nat) (fs : FlowState),
      o ∈ ((l.foldl (fun acc b => flowBlockStep cfg b acc) fs)).gs x →
      o ∈ fs.gs x ∨ OriginFromBlocks cfg o := by
    intro l
    induction l with
    | nil => intro fs h2; exact Or.inl h2
    | cons b t ih =>
      intro fs h2
      rcases ih _ h2 with h3 | h3
      · exact flowBlockStep_prov cfg b fs x o h3
      · exact Or.inr h3
  rcases haux _ initFlowState h with h2 | h2
  · simp [initFlowState] at h2
  · exact h2

/-! ### Claims -/

/-- C1: intra-block backward resolution.  First part: whenever the
backward scan meets a Write (the block's action list splits as
pre ++ write :: post), the scan state at that point is the state after
scanning post (the actions after the Write), and the Write records
itself as a reaching origin for exactly the pending Reads of its index
in that state, then clears that pending list, after which scanning
continues on pre.  Second part: in the straight-line block
write(x=A); read(x)=R1; write(x=B); read(x)=R2 (ids 1, 2, 3, 4), R1's
only reaching origin is the write A and R2's only reaching origin is
the write B. -/
theorem claim_C1_intra_block_resolution :
    (∀ (pre post : List Action) (s : LocalSet) (p : Pending) (gs : GS),
        scanBlock (pre ++ Action.set s :: post) p gs =
          scanBlock pre
            (updFn (scanBlock post p gs).1 s.index [])
            (recordAll ((scanBlock post p gs).1 s.index) (some s)
              (scanBlock post p gs).2)) ∧
    (flowAll cfgStraight).gs 2 = [some ⟨1, 0⟩] ∧
    (flowAll cfgStraight).gs 4 = [some ⟨3, 0⟩] := by
  refine ⟨?_, by decide, by decide⟩
  intro pre post s p gs
  induction pre with
  | nil => rfl
  | cons a t ih =>
    simp only [List.cons_append, scanBlock, List.append_eq, ih]

/-- C3 counterexample: in cfgDeadRoot the backward search for the
pending read (id 7) reaches the predecessor-less non-entry block 2 with
no write found, yet the Implicit origin is not recorded: the read ends
with no reaching origin at all. -/
theorem claim_C3_counterexample :
    (flowAll cfgDeadRoot).gs 7 = [] ∧
    ¬ (none ∈ (flowAll cfgDeadRoot).gs 7) := by
  exact ⟨by decide, by decide⟩

/-- C3 (amended): when the worklist search pops a predecessor-less
block, the Implicit origin is recorded for all pending Reads exactly
when that block is the entry block; popping a non-entry
predecessor-less block records nothing and that branch of the search
simply ends. -/
theorem claim_C3_amended_implicit_at_entry_only :
    ∀ (cfg : CFG) (idx : VarIndex) (gets : List LocalGet)
      (iter fuel : Nat) (lti : Nat → Option Nat) (c : Nat)
      (rest : List Nat) (gs : GS),
      (blockAt cfg c).inEdges = [] →
      ((c = cfg.entryId →
          flowLoop cfg idx gets iter (fuel + 1) ⟨lti, c :: rest, gs⟩ =
            flowLoop cfg idx gets iter fuel
              ⟨lti, rest, recordAll gets none gs⟩) ∧
        (c ≠ cfg.entryId →
          flowLoop cfg idx gets iter (fuel + 1) ⟨lti, c :: rest, gs⟩ =
            flowLoop cfg idx gets iter fuel ⟨lti, rest, gs⟩)) := by
  intro cfg idx gets iter fuel lti c rest gs hin
  constructor
  · intro hc
    subst hc
    simp [flowLoop, hin]
  · intro hc
    simp [flowLoop, hin, hc]

/-- C3 witness: the two amended step facts at concrete inputs (the entry
block 0 and the dead root 2 of cfgDeadRoot). -/
theorem claim_C3_witness :
    (flowLoop cfgDeadRoot 0 [⟨7, 0⟩] 0 1 ⟨fun _ => none, [0], fun _ => []⟩ =
      flowLoop cfgDeadRoot 0 [⟨7, 0⟩] 0 0
        ⟨fun _ => none, [], recordAll [⟨7, 0⟩] none (fun _ => [])⟩) ∧
    (flowLoop cfgDeadRoot 0 [⟨7, 0⟩] 0 1 ⟨fun _ => none, [2], fun _ => []⟩ =
      flowLoop cfgDeadRoot 0 [⟨7, 0⟩] 0 0
        ⟨fun _ => none, [], fun _ => []⟩) :=
  ⟨(claim_C3_amended_implicit_at_entry_only cfgDeadRoot 0 [⟨7, 0⟩] 0 0
      (fun _ => none) 0 [] (fun _ => []) (by decide)).1 (by decide),
    (claim_C3_amended_implicit_at_entry_only cfgDeadRoot 0 [⟨7, 0⟩] 0 0
      (fun _ => none) 2 [] (fun _ => []) (by decide)).2 (by decide)⟩

/-- C4: coverage.  On any graph with valid predecessor lists whose
entry block has no predecessors (the shape the control-flow builder
guarantees: nothing branches to the function start), every tracked Read
lying in a block reachable from the entry block ends the flow with a
non-empty reaching-origin set: the backward search from its block
either meets a Write of its index or reaches the entry block, which
contributes the Implicit origin. -/
theorem claim_C4_coverage :
    ∀ (cfg : CFG) (g : LocalGet) (b : Nat),
      predsValid cfg →
      (blockAt cfg cfg.entryId).inEdges = [] →
      g.index < cfg.numLocals →
      b < cfg.blocks.length →
      Action.get g ∈ (blockAt cfg b).actions →
      ReachableFromEntry cfg b →
      (flowAll cfg).gs g.id ≠ [] := by
  intro cfg g b hv hentry hidx hblt hact hreach
  unfold flowAll
  apply foldBlocks_establishes cfg g b hv hentry hreach hidx hact
    (List.range cfg.blocks.length) initFlowState ?_
    (List.mem_range.mpr hblt)
  intro i v hv2
  simp [initFlowState] at hv2

/-- C4 witness: the loop-header read of cfgLoop lies in block 1, which
is reachable from the entry block 0, and its origin set is
non-empty. -/
theorem claim_C4_witness : (flowAll cfgLoop).gs 10 ≠ [] :=
  claim_C4_coverage cfgLoop ⟨10, 0⟩ 1 (by unfold predsValid; decide)
    (by decide) (by decide) (by decide) (by decide)
    (ReachableFromEntry.step 1 0 ReachableFromEntry.entry (by decide))

/-- C5: equivalent returns true only when both reads have exactly one
reaching origin each; with two or more origins on either side it is
false for every partner; two distinct single origins give false; the
same single concrete Write gives true. -/
theorem claim_C5_equivalent_single_origins :
    ∀ (lg : LocalGraph) (a b : LocalGet),
      (2 ≤ (lg.getSetses a.id).length →
        equivalent lg a b = false ∧ equivalent lg b a = false) ∧
      (∀ oa ob, lg.getSetses a.id = [oa] → lg.getSetses b.id = [ob] →
        oa ≠ ob → equivalent lg a b = false) ∧
      (∀ w : LocalSet, lg.getSetses a.id = [some w] →
        lg.getSetses b.id = [some w] → equivalent lg a b = true) := by
  intro lg a b
  refine ⟨?_, ?_, ?_⟩
  · intro h2
    constructor
    · cases hv : equivalent lg a b
      · rfl
      · obtain ⟨o, ha, _⟩ := equivalent_true_structure lg a b hv
        rw [ha] at h2; simp at h2
    · cases hv : equivalent lg b a
      · rfl
      · obtain ⟨o, _, ha⟩ := equivalent_true_structure lg b a hv
        rw [ha] at h2; simp at h2
  · intro oa ob ha hb hne
    rw [equivalent_singletons lg a b oa ob ha hb]
    simp [hne]
  · intro w ha hb
    rw [equivalent_singletons lg a b (some w) (some w) ha hb]
    simp

/-- C5 witness: the read in the loop header of cfgLoop has two reaching
origins and is equivalent to nothing (in either argument position); the
two reads of cfgStraight have distinct single origins and are
inequivalent; a read whose single origin is the concrete write of
cfgWriteRead is equivalent to itself. -/
theorem claim_C5_witness :
    (equivalent lgLoop ⟨10, 0⟩ ⟨2, 0⟩ = false ∧
      equivalent lgLoop ⟨2, 0⟩ ⟨10, 0⟩ = false) ∧
    equivalent lgStraight ⟨2, 0⟩ ⟨4, 0⟩ = false ∧
    equivalent lgWriteRead ⟨2, 0⟩ ⟨2, 0⟩ = true :=
  ⟨(claim_C5_equivalent_single_origins lgLoop ⟨10, 0⟩ ⟨2, 0⟩).1
      (by decide),
    (claim_C5_equivalent_single_origins lgStraight ⟨2, 0⟩ ⟨4, 0⟩).2.1
      (some ⟨1, 0⟩) (some ⟨3, 0⟩) (by decide) (by decide) (by decide),
    (claim_C5_equivalent_single_origins lgWriteRead ⟨2, 0⟩ ⟨2, 0⟩).2.2
      ⟨1, 0⟩ (by decide) (by decide)⟩

/-- C6 counterexample: in lgMixed the read with id 1 is of the
non-parameter slot 1 and the read with id 2 is of the parameter slot 0,
both with the single Implicit origin and the same declared type, and
equivalent returns true, although the two reads are neither both of
parameter slots nor both of non-parameter slots, contradicting the
claimed characterization. -/
theorem claim_C6_counterexample :
    lgMixed.getSetses 1 = [none] ∧
    lgMixed.getSetses 2 = [none] ∧
    ¬ (equivalent lgMixed ⟨1, 1⟩ ⟨2, 0⟩ = true ↔
        ((isParam funcMixed 1 = true ∧ isParam funcMixed 0 = true ∧
            (1 : Nat) = 0) ∨
          (isParam funcMixed 1 = false ∧ isParam funcMixed 0 = false ∧
            getLocalType funcMixed 1 = getLocalType funcMixed 0))) := by
  exact ⟨by decide, by decide, by decide⟩

/-- C6 (amended): for two reads whose single reaching origins are both
Implicit, equivalent returns true iff either the FIRST read is of a
parameter slot and the two VariableIndexes are identical, or the first
read is of a non-parameter slot and the two declared types are
identical; only the first read's slot kind is consulted. -/
theorem claim_C6_amended_implicit_equivalence :
    ∀ (lg : LocalGraph) (a b : LocalGet),
      lg.getSetses a.id = [none] → lg.getSetses b.id = [none] →
      (equivalent lg a b = true ↔
        ((isParam lg.func a.index = true ∧ a.index = b.index) ∨
          (isParam lg.func a.index = false ∧
            getLocalType lg.func a.index = getLocalType lg.func b.index))) := by
  intro lg a b ha hb
  rw [equivalent_singletons lg a b none none ha hb]
  by_cases hp : isParam lg.func a.index
  · simp [hp]
  · simp [hp]

/-- C6 witness: two Implicit-origin reads of the same parameter index
are equivalent, two Implicit-origin reads of distinct parameter indices
are not. -/
theorem claim_C6_witness :
    equivalent lgParams ⟨1, 0⟩ ⟨3, 0⟩ = true ∧
    equivalent lgParams ⟨1, 0⟩ ⟨2, 1⟩ = false := by
  constructor
  · exact (claim_C6_amended_implicit_equivalence lgParams ⟨1, 0⟩ ⟨3, 0⟩
      (by decide) (by decide)).mpr (by decide)
  · have h := claim_C6_amended_implicit_equivalence lgParams ⟨1, 0⟩ ⟨2, 1⟩
      (by decide) (by decide)
    cases hv : equivalent lgParams ⟨1, 0⟩ ⟨2, 1⟩
    · rfl
    · exact absurd (h.mp hv) (by decide)

/-- C7 counterexample: in the function of cfgOnlyWrite exactly one
Write (id 1) of index 0 exists anywhere in the function, and it is
vacuously the unique reaching origin of every Read of index 0 (there
are no such Reads), yet isSSA after computeSSAIndexes returns false:
the claimed characterization "isSSA iff one Write existing that is the
unique origin of every Read" fails at this input. -/
theorem claim_C7_counterexample :
    isSSA (computeSSAIndexes lgOnlyWrite) 0 = false ∧
    (setsOf lgOnlyWrite.tracked).filter (fun s => s.index == 0)
      = [⟨1, 0⟩] ∧
    (∀ g ∈ getsOf lgOnlyWrite.tracked, g.index = 0 →
      lgOnlyWrite.getSetses g.id = [some ⟨1, 0⟩]) := by
  exact ⟨by decide, by decide, by decide⟩

/-- C7 (amended): after computeSSAIndexes, isSSA(idx) is true iff the
Reads of idx have exactly one distinct reaching origin o between them
(at least one Read of idx exists) and every tracked Write of idx equals
o — so o is Implicit only when no Write of idx exists at all.  An index
with one Write but no Reads is not SSA, and an index with Reads but no
Writes is. -/
theorem claim_C7_amended_ssa_characterization :
    ∀ (lg : LocalGraph) (idx : VarIndex),
      isSSA (computeSSAIndexes lg) idx = true ↔
        ∃ o : Origin,
          (∀ o2 : Origin,
            (∃ g ∈ getsOf lg.tracked, g.index = idx ∧
                o2 ∈ lg.getSetses g.id) ↔ o2 = o) ∧
          ∀ s ∈ setsOf lg.tracked, s.index = idx → o = some s := by
  intro lg idx
  show ((invalidateSets (setsOf lg.tracked)
      (computeIndexSets (getsOf lg.tracked) lg.getSetses) idx).length
        == 1) = true ↔ _
  rw [beq_iff_eq, List.length_eq_one]
  have hnd : (computeIndexSets (getsOf lg.tracked) lg.getSetses idx).Nodup :=
    computeIndexSets_nodup lg.getSetses (getsOf lg.tracked)
      (fun _ => []) (fun _ => List.nodup_nil) idx
  constructor
  · rintro ⟨o, ho⟩
    rw [invalidateSets_singleton_iff] at ho
    refine ⟨o, ?_, ho.2⟩
    have hchar := (nodup_eq_singleton_iff hnd o).mp ho.1
    intro o2
    rw [← hchar o2]
    have hmem := computeIndexSets_mem lg.getSetses (getsOf lg.tracked)
      (fun _ => []) idx o2
    constructor
    · intro hex
      exact hmem.mpr (Or.inr hex)
    · intro hin
      rcases hmem.mp hin with h | h
      · cases h
      · exact h
  · rintro ⟨o, hchar, hsets⟩
    refine ⟨o, ?_⟩
    rw [invalidateSets_singleton_iff]
    refine ⟨?_, hsets⟩
    rw [nodup_eq_singleton_iff hnd o]
    intro o2
    have hmem := computeIndexSets_mem lg.getSetses (getsOf lg.tracked)
      (fun _ => []) idx o2
    constructor
    · intro hin
      rcases hmem.mp hin with h | h
      · cases h
      · exact (hchar o2).mp h
    · intro heq
      exact hmem.mpr (Or.inr ((hchar o2).mpr heq))

/-- C8: unreachable code is skipped entirely.  First and second parts:
the visitor functions, inside unreachable code (currBasicBlock null),
leave the state untouched — the node is added to no block's action
sequence and not entered into the location map.  Third part: a Write
that occurs in no block's action list (i.e. was never tracked) never
appears as a reaching origin of any Read. -/
theorem claim_C8_unreachable_skipped :
    (∀ (locs : List Action) (g : LocalGet),
        doVisitLocalGet none locs g = (none, locs)) ∧
    (∀ (locs : List Action) (s : LocalSet),
        doVisitLocalSet none locs s = (none, locs)) ∧
    (∀ (cfg : CFG) (w : LocalSet),
        (∀ blk ∈ cfg.blocks, Action.set w ∉ blk.actions) →
        ∀ x : Nat, some w ∉ (flowAll cfg).gs x) := by
  refine ⟨fun _ _ => rfl, fun _ _ => rfl, ?_⟩
  intro cfg w hw x hmem
  rcases flowAll_prov cfg x (some w) hmem with h | ⟨blk, hblk, s, hs, hsmem⟩
  · cases h
  · injection hs with hs2
    exact hw blk hblk (by rw [hs2]; exact hsmem)

/-- C8 witness: the visitor skips at concrete inputs, and the concrete
never-tracked write 99 is no read's origin in cfgStraight. -/
theorem claim_C8_witness :
    doVisitLocalGet none [] ⟨5, 0⟩ = (none, []) ∧
    doVisitLocalSet none [] ⟨6, 0⟩ = (none, []) ∧
    some (⟨99, 0⟩ : LocalSet) ∉ (flowAll cfgStraight).gs 2 :=
  ⟨claim_C8_unreachable_skipped.1 [] ⟨5, 0⟩,
    claim_C8_unreachable_skipped.2.1 [] ⟨6, 0⟩,
    claim_C8_unreachable_skipped.2.2 cfgStraight ⟨99, 0⟩ (by decide) 2⟩

/-- C9 counterexample: for the function of cfgWriteRead, index 0 is a
genuine SSA index, yet isSSA queried on the freshly constructed
LocalGraph, before computeSSAIndexes has been run, returns the plain
boolean false instead of failing: a silently degraded answer, as the
same query after computeSSAIndexes returns true. -/
theorem claim_C9_counterexample :
    isSSA (mkLocalGraph cfgWriteRead funcWriteRead) 0 = false ∧
    isSSA (computeSSAIndexes (mkLocalGraph cfgWriteRead funcWriteRead)) 0
      = true := by
  exact ⟨rfl, by decide⟩

/-- C9 (amended): isSSA contains no assertion at all; on a LocalGraph on
which computeSSAIndexes has not been run it silently returns false for
every index. -/
theorem claim_C9_amended_isSSA_before_compute :
    ∀ (cfg : CFG) (f : Func) (x : VarIndex),
      isSSA (mkLocalGraph cfg f) x = false :=
  fun _ _ _ => rfl

/-- C10: restricted reflexivity of equivalent: for every read a,
equivalent a a is true iff a has exactly one reaching origin; with two
or more origins it is false even on the identical node. -/
theorem claim_C10_equivalent_refl :
    ∀ (lg : LocalGraph) (a : LocalGet),
      equivalent lg a a = true ↔ (lg.getSetses a.id).length = 1 := by
  intro lg a
  constructor
  · intro h
    obtain ⟨o, ha, _⟩ := equivalent_true_structure lg a a h
    rw [ha]; rfl
  · intro h
    rcases hl : lg.getSetses a.id with _ | ⟨o, t⟩
    · rw [hl] at h; simp at h
    · rcases t with _ | ⟨o2, t2⟩
      · rw [equivalent_singletons lg a a o o hl hl]
        cases o
        · by_cases hp : isParam lg.func a.index
          · simp [hp]
          · simp [hp]
        · simp
      · rw [hl] at h; simp at h

/-- C2: loop back-edge correctness and termination.  First part: on any
graph with valid predecessor ids (cyclic or not), the inter-block
backward worklist search for one VariableIndex terminates: with fuel
exceeding the search measure the loop reaches the empty worklist and
returns a state.  Second part: a block already marked in the current
search generation is never re-examined within that same search: the
predecessor loop skips it, leaving the state untouched.  Third part: in
cfgLoop, the read (id 10) in the loop header, which precedes the loop's
single internal write (id 11) in block 2 and is reached from it via the
back edge, has that write among its reaching origins. -/
theorem claim_C2_cycle_termination :
    (∀ (cfg : CFG) (idx : VarIndex) (gets : List LocalGet)
        (iter fuel : Nat) (st : SearchState), predsValid cfg →
        searchMeasure cfg iter st < fuel →
        (flowLoop cfg idx gets iter fuel st).isSome = true) ∧
    (∀ (cfg : CFG) (idx : VarIndex) (gets : List LocalGet)
        (iter : Nat) (ps : List Nat) (p : Nat) (st : SearchState),
        st.lti p = some iter →
        flowPreds cfg idx gets iter (p :: ps) st =
          flowPreds cfg idx gets iter ps st) ∧
    some (⟨11, 0⟩ : LocalSet) ∈ (flowAll cfgLoop).gs 10 := by
  refine ⟨?_, ?_, by decide⟩
  · intro cfg idx gets iter fuel st hv hm
    exact flowLoop_isSome cfg idx gets iter hv fuel st hm
  · intro cfg idx gets iter ps p st hm
    simp [flowPreds, hm]

/-- C2 witness: the termination bound instantiated on the cyclic graph
cfgLoop (the marked-skip part instantiated on a concrete marked
state). -/
theorem claim_C2_witness :
    (flowLoop cfgLoop 0 [⟨10, 0⟩] 0 (searchFuel cfgLoop)
        ⟨fun _ => none, [1], fun _ => []⟩).isSome = true ∧
    flowPreds cfgLoop 0 [⟨10, 0⟩] 0 [2]
        ⟨fun _ => some 0, [1], fun _ => []⟩ =
      flowPreds cfgLoop 0 [⟨10, 0⟩] 0 []
        ⟨fun _ => some 0, [1], fun _ => []⟩ :=
  ⟨claim_C2_cycle_termination.1 cfgLoop 0 [⟨10, 0⟩] 0 (searchFuel cfgLoop)
      ⟨fun _ => none, [1], fun _ => []⟩
      (by unfold predsValid; decide) (by decide),
    claim_C2_cycle_termination.2.1 cfgLoop 0 [⟨10, 0⟩] 0 [] 2
      ⟨fun _ => some 0, [1], fun _ => []⟩ rfl⟩

end LocalGraphModel
